import Mathlib

set_option maxHeartbeats 1600000

/-!
Verification of the adjacency-matrix topological-sort library.

The repository has two Python modules:
- `Kahn.py`    : `khan` (Kahn's algorithm), `topo_stack_duration` (DFS, sorts by
                 decreasing exit time), `is_valid_topo`.
- `Gbt_Kahn.py`: the same `khan` and `is_valid_topo`, plus
                 `topo_stack_duration_with_details` (DFS with enter/exit
                 timestamps, sorts by decreasing duration) and its wrapper
                 `topo_stack_duration`.

Graphs are square adjacency matrices; the value at position (0,0) is the
"no edge" sentinel.  We embed matrices as `List (List Nat)`.  Python's
unbounded recursion is modelled with a fuel parameter returning `Option`
(`none` = the recursion would exceed the fuel, which we prove never happens
for the fuel the entry points supply); a raised `ValueError` is modelled as
`Except.error`.
-/

abbrev Graph := List (List Nat)

/-- `graph[0][0]`, the designated "no edge" sentinel. -/
def noEdge (g : Graph) : Nat := (g.getD 0 []).getD 0 0

/-- `graph[u][v] != graph[0][0]` : the test the Python code uses for an edge
`u -> v`.  Out-of-range indices read the sentinel, hence give no edge. -/
def edgeB (g : Graph) (u v : Nat) : Bool :=
  decide ((g.getD u []).getD v (noEdge g) ≠ noEdge g)

/-- The edge relation of the matrix, as a proposition. -/
def EdgeR (g : Graph) (u v : Nat) : Prop := edgeB g u v = true

/-- A graph is acyclic when no vertex lies on a nonempty directed cycle. -/
def Acyclic (g : Graph) : Prop := ∀ v, ¬ Relation.TransGen (EdgeR g) v v

/-- Well-formedness: the list-level part of the data-integrity check of the
Python sources (non-empty, and every row as long as the number of rows).
The `None` / `isinstance` parts of the Python check are type-level facts in
this embedding. -/
def WFP (g : Graph) : Prop := g ≠ [] ∧ ∀ row ∈ g, row.length = g.length

instance (g : Graph) : Decidable (WFP g) := by
  unfold WFP; infer_instance

/-- The boolean data-integrity check at the head of `khan`,
`topo_stack_duration` and `topo_stack_duration_with_details`:
`len(graph) == 0 or not all(len(row) == len(graph) for row in graph)`. -/
def invalidB (g : Graph) : Bool :=
  (g.length == 0) || !(g.all fun row => row.length == g.length)

def invalidMsg : String := "Input must be a non-empty square adjacency matrix."

/-! ### `is_valid_topo` (identical in both files)

Python builds a dict `pos` with `pos[order[i]] = i` (later indices
overwrite), then scans all matrix entries in lexicographic `(u, v)` order,
returning `False` at the first edge with `pos[u] >= pos[v]`.  A lookup of a
vertex that is not a key of `pos` raises `KeyError`; we model that as
`none`. -/

/-- The dict-building loop `for i in range(len(order)): pos[order[i]] = i`. -/
def buildPos : List Nat → Nat → (Nat → Option Nat) → (Nat → Option Nat)
  | [], _, m => m
  | x :: rest, i, m => buildPos rest (i + 1) (fun y => if y = x then some i else m y)

def posMap (order : List Nat) : Nat → Option Nat := buildPos order 0 (fun _ => none)

/-- The nested `for u: for v:` scan with early `return False`. -/
def checkEdges (g : Graph) (pos : Nat → Option Nat) : List (Nat × Nat) → Option Bool
  | [] => some true
  | (u, v) :: rest =>
    if edgeB g u v then
      match pos u, pos v with
      | some pu, some pv => if pv ≤ pu then some false else checkEdges g pos rest
      | _, _ => none
    else checkEdges g pos rest

/-- All pairs `(u, v)` with `u, v < n`, in the lexicographic order the Python
double loop uses. -/
def allPairs (n : Nat) : List (Nat × Nat) :=
  (List.range n).foldr (fun u acc => ((List.range n).map (fun v => (u, v))) ++ acc) []

def is_valid_topo (g : Graph) (order : List Nat) : Option Bool :=
  checkEdges g (posMap order) (allPairs g.length)

/-! ### Python's `sorted(range(N), key=..., reverse=True)`

A stable descending sort: `u` is placed before `w` iff `key u > key w`, with
ties kept in original (ascending index) order.  Stable insertion sort
computes exactly that ordering. -/

def insertDesc {α : Type} [LinearOrder α] (key : Nat → α) : List Nat → Nat → List Nat
  | [], v => [v]
  | u :: rest, v => if key u < key v then v :: u :: rest else u :: insertDesc key rest v

def sortDesc {α : Type} [LinearOrder α] (key : Nat → α) (l : List Nat) : List Nat :=
  l.foldl (insertDesc key) []

namespace Kahn

/-! ### `khan` (identical in `Kahn.py` and `Gbt_Kahn.py`) -/

/-- The in-degree computation:
`for u in range(N): for v in range(N): if graph[u][v] != NO_EDGE: in_degrees[v] += 1`. -/
def initInDegrees (g : Graph) : List Int :=
  (List.range g.length).foldl
    (fun acc u =>
      (List.range g.length).foldl
        (fun acc2 v => if edgeB g u v then acc2.set v (acc2.getD v 0 + 1) else acc2)
        acc)
    (List.replicate g.length (0 : Int))

/-- Initial sources: all vertices of in-degree 0, in ascending index order. -/
def initSources (indeg : List Int) (n : Nat) : List Nat :=
  (List.range n).foldl (fun s i => if indeg.getD i 0 = 0 then s ++ [i] else s) []

/-- One neighbour-update of the main loop: decrement `in_degrees[w]` along an
edge `v -> w` and enqueue `w` when it reaches 0. -/
def khanStep (g : Graph) (v : Nat) (p : List Int × List Nat) (w : Nat) : List Int × List Nat :=
  if edgeB g v w then
    let ind := p.1.set w (p.1.getD w 0 - 1)
    if ind.getD w 0 = 0 then (ind, p.2 ++ [w]) else (ind, p.2)
  else p

/-- The `while len(sources) > 0` loop.  Each iteration pops the front source,
appends it to the output and updates its out-neighbours.  `fuel` bounds the
number of iterations (`none` = fuel exhausted, proved unreachable below). -/
def khanLoop (g : Graph) : Nat → List Nat → List Int → List Nat → Option (List Nat)
  | fuel, sources, indeg, order =>
    match sources with
    | [] => some order
    | v :: rest =>
      match fuel with
      | 0 => none
      | fuel' + 1 =>
        let p := (List.range g.length).foldl (khanStep g v) (indeg, rest)
        khanLoop g fuel' p.2 p.1 (order ++ [v])

def khan (g : Graph) : Except String (List Nat) :=
  if invalidB g then .error invalidMsg
  else
    let indeg := initInDegrees g
    match khanLoop g g.length (initSources indeg g.length) indeg [] with
    | some order => .ok order
    | none => .error "recursion limit"

/-- The number of not-yet-emitted predecessors of `w`. -/
def countPreds (g : Graph) (emitted : List Nat) (w : Nat) : Nat :=
  ((List.range g.length).filter (fun u => edgeB g u w && !(emitted.contains u))).length

/-- Invariant of the `while` loop of `khan`. -/
def KhanInv (g : Graph) (sources : List Nat) (indeg : List Int) (order : List Nat) : Prop :=
  indeg.length = g.length ∧
  order.Nodup ∧ (∀ x ∈ order, x < g.length) ∧
  sources.Nodup ∧ (∀ x ∈ sources, x < g.length) ∧
  (∀ x ∈ sources, x ∉ order) ∧
  (∀ w, w < g.length → indeg.getD w 0 = (countPreds g order w : Int)) ∧
  (∀ w, w < g.length → (indeg.getD w 0 = 0 ↔ w ∈ sources ∨ w ∈ order)) ∧
  (∀ u w, edgeB g u w = true → w ∈ order →
    u ∈ order ∧ order.indexOf u < order.indexOf w)

/-! ### `topo_stack_duration` of `Kahn.py`

Recursive DFS; the clock ticks once per pop and `exit_time[v]` records the
pop tick.  Output: vertices sorted by strictly decreasing exit time. -/

structure St where
  visited : List Bool
  exit_time : List Nat
  time : Nat

/-- The nested `def dfs(v)` of `Kahn.py`.  The fuel bounds the recursion
depth; each call consumes one unit and every recursive call targets a vertex
that is unvisited at call time. -/
def dfs (g : Graph) : Nat → Nat → St → Option St
  | 0, _, _ => none
  | fuel + 1, v, s =>
    ((List.range g.length).foldl
        (fun acc u =>
          acc.bind fun st =>
            if edgeB g v u && !(st.visited.getD u false) then dfs g fuel u st else some st)
        (some { s with visited := s.visited.set v true })).map
      fun st => { st with exit_time := st.exit_time.set v (st.time + 1), time := st.time + 1 }

/-- `for v in range(N): if not visited[v]: dfs(v)`. -/
def dfsForest (g : Graph) : Option St :=
  (List.range g.length).foldl
    (fun acc v => acc.bind fun st => if !(st.visited.getD v false) then dfs g g.length v st else some st)
    (some ⟨List.replicate g.length false, List.replicate g.length 0, 0⟩)

def topo_stack_duration (g : Graph) : Except String (List Nat) :=
  if invalidB g then .error invalidMsg
  else
    match dfsForest g with
    | some s => .ok (sortDesc (fun v => s.exit_time.getD v 0) (List.range g.length))
    | none => .error "recursion limit"

/-- `visited[w]` of a DFS state (out-of-range reads `False`). -/
def visB (s : St) (w : Nat) : Bool := s.visited.getD w false

/-- `exit_time[w]` of a DFS state (out-of-range reads `0`). -/
def exitv (s : St) (w : Nat) : Nat := s.exit_time.getD w 0

/-- A vertex is finished when its exit time has been assigned (times start
at 1, so `0` means unassigned). -/
def finP (s : St) (w : Nat) : Prop := exitv s w ≠ 0

/-- Number of unvisited vertices. -/
def unvis (g : Graph) (s : St) : Nat :=
  ((List.range g.length).filter (fun w => !(visB s w))).length

/-- DFS state invariant relative to the set `P` of in-progress vertices
(the vertices currently on the Python recursion stack): visited vertices
are exactly the finished ones plus `P`; assigned exit times are distinct,
lie in `1..time`, and, on acyclic graphs, strictly decrease along edges out
of finished vertices. -/
def DfsInv (g : Graph) (s : St) (P : Nat → Prop) : Prop :=
  s.visited.length = g.length ∧
  s.exit_time.length = g.length ∧
  (∀ w, w < g.length → (visB s w = true ↔ (finP s w ∨ P w))) ∧
  (∀ w, P w → w < g.length ∧ ¬ finP s w) ∧
  (∀ w, w < g.length → finP s w → 1 ≤ exitv s w ∧ exitv s w ≤ s.time) ∧
  (∀ w w', w < g.length → w' < g.length → finP s w → finP s w' →
    exitv s w = exitv s w' → w = w') ∧
  (Acyclic g → ∀ u w, edgeB g u w = true → finP s u →
    finP s w ∧ exitv s w < exitv s u)

end Kahn

namespace Gbt

/-! ### `topo_stack_duration_with_details` of `Gbt_Kahn.py`

Recursive DFS with a clock ticking on every push and every pop;
`enter_time[v]` / `exit_time[v]` record the push / pop ticks.  Output:
vertices sorted by strictly decreasing `duration = exit - enter`. -/

structure St where
  visited : List Bool
  enter_time : List Nat
  exit_time : List Nat
  time : Nat

def dfs (g : Graph) : Nat → Nat → St → Option St
  | 0, _, _ => none
  | fuel + 1, v, s =>
    ((List.range g.length).foldl
        (fun acc u =>
          acc.bind fun st =>
            if edgeB g v u && !(st.visited.getD u false) then dfs g fuel u st else some st)
        (some { s with visited := s.visited.set v true,
                       enter_time := s.enter_time.set v (s.time + 1),
                       time := s.time + 1 })).map
      fun st => { st with exit_time := st.exit_time.set v (st.time + 1), time := st.time + 1 }

def dfsForest (g : Graph) : Option St :=
  (List.range g.length).foldl
    (fun acc v => acc.bind fun st => if !(st.visited.getD v false) then dfs g g.length v st else some st)
    (some ⟨List.replicate g.length false, List.replicate g.length 0, List.replicate g.length 0, 0⟩)

def topo_stack_duration_with_details (g : Graph) :
    Except String (List Nat × List Int × List Nat × List Nat) :=
  if invalidB g then .error invalidMsg
  else
    match dfsForest g with
    | some s =>
      let durations : List Int :=
        (List.range g.length).map
          (fun v => (s.exit_time.getD v 0 : Int) - (s.enter_time.getD v 0 : Int))
      let order := sortDesc (fun v => durations.getD v 0) (List.range g.length)
      .ok (order, durations, s.enter_time, s.exit_time)
    | none => .error "recursion limit"

/-- The wrapper that only returns the order. -/
def topo_stack_duration (g : Graph) : Except String (List Nat) :=
  match topo_stack_duration_with_details g with
  | .ok (order, _, _, _) => .ok order
  | .error e => .error e

/-- `visited[w]` of a DFS state (out-of-range reads `False`). -/
def visB (s : St) (w : Nat) : Bool := s.visited.getD w false

/-- `enter_time[w]` (out-of-range reads `0`). -/
def enterv (s : St) (w : Nat) : Nat := s.enter_time.getD w 0

/-- `exit_time[w]` (out-of-range reads `0`). -/
def exitv (s : St) (w : Nat) : Nat := s.exit_time.getD w 0

/-- A vertex is finished once its exit time is assigned (the clock starts
at 1, so `0` means unassigned). -/
def finP (s : St) (w : Nat) : Prop := exitv s w ≠ 0

/-- Number of unvisited vertices. -/
def unvis (g : Graph) (s : St) : Nat :=
  ((List.range g.length).filter (fun w => !(visB s w))).length

/-- The multiset of timestamps recorded so far: the enter times of visited
vertices followed by the exit times of finished vertices. -/
def stamps (g : Graph) (s : St) : List Nat :=
  ((List.range g.length).filter (fun w => visB s w)).map (fun w => enterv s w) ++
    ((List.range g.length).filter (fun w => decide (exitv s w ≠ 0))).map (fun w => exitv s w)

/-- DFS state invariant for the shared-clock DFS of `Gbt_Kahn.py`, relative
to the set `P` of in-progress vertices: the clock has ticked `time` times
and the recorded timestamps are exactly `1..time`, each once. -/
def DfsInv (g : Graph) (s : St) (P : Nat → Prop) : Prop :=
  s.visited.length = g.length ∧
  s.enter_time.length = g.length ∧
  s.exit_time.length = g.length ∧
  (∀ w, w < g.length → (visB s w = true ↔ (finP s w ∨ P w))) ∧
  (∀ w, P w → w < g.length ∧ visB s w = true ∧ ¬ finP s w) ∧
  (∀ w, w < g.length → visB s w = true → 1 ≤ enterv s w ∧ enterv s w ≤ s.time) ∧
  (∀ w, w < g.length → finP s w → enterv s w < exitv s w ∧ exitv s w ≤ s.time) ∧
  (stamps g s).Perm (List.range' 1 s.time)

end Gbt

/-! ### The example graphs of the repository, and the counterexample graphs -/

def G1 : Graph :=
  [[0, 1, 1, 0, 0, 0],
   [0, 0, 0, 1, 1, 0],
   [0, 0, 0, 0, 1, 1],
   [0, 0, 0, 0, 0, 1],
   [0, 0, 0, 0, 0, 1],
   [0, 0, 0, 0, 0, 0]]

def G2 : Graph :=
  [[0, 0, 1, 0, 1, 1],
   [0, 0, 1, 0, 0, 0],
   [0, 0, 0, 0, 1, 1],
   [0, 1, 2, 0, 0, 1],
   [0, 0, 0, 0, 0, 1],
   [0, 0, 0, 0, 0, 0]]

/-- A two-vertex acyclic graph with the single edge `1 -> 0`. -/
def Grev : Graph := [[0, 0], [1, 0]]

/-- The 3-cycle `0 -> 1 -> 2 -> 0`. -/
def Gcyc : Graph := [[0, 1, 0], [0, 0, 1], [1, 0, 0]]

/-! ### Generic list helpers -/

theorem getD_set_self {α : Type} (l : List α) (i : Nat) (x d : α) (h : i < l.length) :
    (l.set i x).getD i d = x := by
  rw [List.getD_eq_getElem?_getD, List.getElem?_set_self (by simpa using h)]
  rfl

theorem getD_set_ne {α : Type} (l : List α) {i j : Nat} (x d : α) (h : i ≠ j) :
    (l.set i x).getD j d = l.getD j d := by
  rw [List.getD_eq_getElem?_getD, List.getElem?_set_ne h, ← List.getD_eq_getElem?_getD]

theorem getD_replicate {α : Type} (n i : Nat) (x : α) :
    (List.replicate n x).getD i x = x := by
  rcases Nat.lt_or_ge i n with h | h
  · rw [List.getD_eq_getElem?_getD, List.getElem?_replicate]
    simp [h]
  · rw [List.getD_eq_default _ _ (by simpa using h)]

theorem length_filter_le_of_imp {l : List Nat} {p q : Nat → Bool}
    (h : ∀ x ∈ l, q x = true → p x = true) :
    (l.filter q).length ≤ (l.filter p).length := by
  induction l with
  | nil => simp
  | cons a l ih =>
    have ih' := ih (fun x hx => h x (List.mem_cons_of_mem a hx))
    rcases hq : q a with _ | _
    · rcases hp : p a with _ | _
      · simpa [List.filter_cons, hq, hp] using ih'
      · simp [List.filter_cons, hq, hp]
        omega
    · have hp : p a = true := h a (List.mem_cons_self a l) hq
      simp [List.filter_cons, hq, hp]
      omega

/-- Flipping one value of the predicate from `true` to `false` at an element
of a duplicate-free list drops the filter length by exactly one. -/
theorem length_filter_flip {l : List Nat} (hnd : l.Nodup) {p q : Nat → Bool} {v : Nat}
    (hv : v ∈ l) (hpv : p v = true) (hqv : q v = false)
    (hagree : ∀ w ∈ l, w ≠ v → p w = q w) :
    (l.filter q).length + 1 = (l.filter p).length := by
  induction l with
  | nil => cases hv
  | cons a l ih =>
    rcases List.mem_cons.mp hv with heq | hv'
    · subst heq
      have hnotin : v ∉ l := (List.nodup_cons.mp hnd).1
      have hfeq : l.filter p = l.filter q := by
        apply List.filter_congr
        intro x hx
        exact hagree x (List.mem_cons_of_mem v hx) (fun h => hnotin (h ▸ hx))
      simp [List.filter_cons, hpv, hqv, hfeq]
    · have hne : a ≠ v := by
        rintro rfl
        exact (List.nodup_cons.mp hnd).1 hv'
      have hrec := ih (List.nodup_cons.mp hnd).2 hv'
        (fun w hw hwv => hagree w (List.mem_cons_of_mem a hw) hwv)
      have haq : p a = q a := hagree a (List.mem_cons_self a l) hne
      rcases hqa : q a with _ | _
      · simp only [List.filter_cons, haq, hqa, Bool.false_eq_true, if_false]
        exact hrec
      · simp [List.filter_cons, haq, hqa]
        omega

/-- Flipping one value of the predicate from `false` to `true` at an element
of a duplicate-free list adds that element to the filter, up to permutation. -/
theorem filter_perm_flip {l : List Nat} (hnd : l.Nodup) {p q : Nat → Bool} {v : Nat}
    (hv : v ∈ l) (hpv : p v = false) (hqv : q v = true)
    (hagree : ∀ w ∈ l, w ≠ v → p w = q w) :
    (l.filter q).Perm (v :: l.filter p) := by
  induction l with
  | nil => cases hv
  | cons a l ih =>
    rcases List.mem_cons.mp hv with heq | hv'
    · subst heq
      have hnotin : v ∉ l := (List.nodup_cons.mp hnd).1
      have hfeq : l.filter q = l.filter p := by
        apply List.filter_congr
        intro x hx
        exact (hagree x (List.mem_cons_of_mem v hx) (fun h => hnotin (h ▸ hx))).symm
      simp [List.filter_cons, hpv, hqv, hfeq]
    · have hne : a ≠ v := by
        rintro rfl
        exact (List.nodup_cons.mp hnd).1 hv'
      have hrec := ih (List.nodup_cons.mp hnd).2 hv'
        (fun w hw hwv => hagree w (List.mem_cons_of_mem a hw) hwv)
      have haq : p a = q a := hagree a (List.mem_cons_self a l) hne
      rcases hqa : q a with _ | _
      · simp only [List.filter_cons, haq, hqa, Bool.false_eq_true, if_false]
        exact hrec
      · simp only [List.filter_cons, haq, hqa, if_pos rfl]
        exact (hrec.cons a).trans (List.Perm.swap v a _)

theorem indexOf_append_left {l l' : List Nat} {x : Nat} (h : x ∈ l) :
    (l ++ l').indexOf x = l.indexOf x := by
  induction l with
  | nil => cases h
  | cons a l ih =>
    by_cases hxa : x = a
    · subst hxa
      simp [List.indexOf_cons_self]
    · rcases List.mem_cons.mp h with h' | h'
      · exact absurd h' hxa
      · rw [List.cons_append, List.indexOf_cons_ne _ (Ne.symm hxa),
          List.indexOf_cons_ne _ (Ne.symm hxa), ih h']

theorem indexOf_append_right {l l' : List Nat} {x : Nat} (h : x ∉ l) :
    (l ++ l').indexOf x = l.length + l'.indexOf x := by
  induction l with
  | nil => simp
  | cons a l ih =>
    have hxa : x ≠ a := fun hh => h (hh ▸ List.mem_cons_self a l)
    rw [List.cons_append, List.indexOf_cons_ne _ (Ne.symm hxa),
      ih (fun hh => h (List.mem_cons_of_mem a hh))]
    simp [Nat.succ_add]

theorem foldl_append_filter (p : Nat → Bool) :
    ∀ (l : List Nat) (acc : List Nat),
      l.foldl (fun s i => if p i then s ++ [i] else s) acc = acc ++ l.filter p := by
  intro l
  induction l with
  | nil => simp
  | cons a l ih =>
    intro acc
    rcases hpa : p a with _ | _
    · simp [List.foldl_cons, hpa, List.filter_cons, ih]
    · simp [List.foldl_cons, hpa, List.filter_cons, ih]

theorem perm_range_of {l : List Nat} {N : Nat} (hnd : l.Nodup)
    (hsub : ∀ x ∈ l, x < N) (hlen : N ≤ l.length) : l.Perm (List.range N) := by
  have hsp : l.Subperm (List.range N) :=
    List.subperm_of_subset hnd (fun x hx => List.mem_range.mpr (hsub x hx))
  exact hsp.perm_of_length_le (by simpa using hlen)

/-! ### Facts about `edgeB`, `Acyclic` -/

theorem edgeB_true_iff {g : Graph} {u v : Nat} :
    edgeB g u v = true ↔ (g.getD u []).getD v (noEdge g) ≠ noEdge g := by
  rw [edgeB, decide_eq_true_eq]

theorem edgeB_lt {g : Graph} (hWF : WFP g) {u v : Nat} (h : edgeB g u v = true) :
    u < g.length ∧ v < g.length := by
  rw [edgeB_true_iff] at h
  by_cases hu : u < g.length
  · refine ⟨hu, ?_⟩
    by_contra hv
    have hrow : g.getD u [] = g[u] := List.getD_eq_getElem g [] hu
    have hmem : g[u] ∈ g := List.getElem_mem hu
    have hlen : (g[u]).length = g.length := hWF.2 _ hmem
    have heq : (g.getD u []).getD v (noEdge g) = noEdge g := by
      rw [hrow]
      exact List.getD_eq_default _ _ (by omega)
    exact h heq
  · exfalso
    have hrow : g.getD u [] = [] := List.getD_eq_default _ _ (by omega)
    rw [hrow] at h
    exact h rfl

theorem acyclic_of_ranking (g : Graph) (hWF : WFP g) (rk : Nat → Nat)
    (h : ∀ u, u < g.length → ∀ v, v < g.length → edgeB g u v = true → rk u < rk v) :
    Acyclic g := by
  have key : ∀ a b, Relation.TransGen (EdgeR g) a b → rk a < rk b := by
    intro a b hab
    induction hab with
    | single he =>
      rcases edgeB_lt hWF he with ⟨h1, h2⟩
      exact h _ h1 _ h2 he
    | tail _ he ih =>
      rcases edgeB_lt hWF he with ⟨h1, h2⟩
      exact lt_trans ih (h _ h1 _ h2 he)
  intro v hv
  exact lt_irrefl _ (key v v hv)

theorem WFP_iff_invalidB (g : Graph) : WFP g ↔ invalidB g = false := by
  constructor
  · rintro ⟨h1, h2⟩
    have hlen : (g.length == 0) = false := by
      simp only [beq_eq_false_iff_ne, ne_eq, List.length_eq_zero]
      exact h1
    have hall : g.all (fun row => row.length == g.length) = true := by
      rw [List.all_eq_true]
      intro row hrow
      simpa using h2 row hrow
    simp [invalidB, hlen, hall]
  · intro h
    rcases hb : (g.length == 0) with _ | _
    · rcases ha : (g.all fun row => row.length == g.length) with _ | _
      · rw [invalidB, hb, ha] at h
        simp at h
      · refine ⟨?_, ?_⟩
        · intro hnil
          subst hnil
          simp at hb
        · intro row hrow
          simpa using List.all_eq_true.mp ha row hrow
    · rw [invalidB, hb] at h
      simp at h

/-! ### `posMap` and `checkEdges` characterisations -/

theorem buildPos_not_mem :
    ∀ (l : List Nat) (i : Nat) (m : Nat → Option Nat) (x : Nat),
      x ∉ l → buildPos l i m x = m x := by
  intro l
  induction l with
  | nil => intro i m x _; rfl
  | cons a l ih =>
    intro i m x hx
    have hxa : x ≠ a := fun h => hx (h ▸ List.mem_cons_self a l)
    rw [buildPos, ih _ _ _ (fun h => hx (List.mem_cons_of_mem a h))]
    simp [hxa]

theorem buildPos_mem :
    ∀ (l : List Nat) (i : Nat) (m : Nat → Option Nat) (x : Nat),
      l.Nodup → x ∈ l → buildPos l i m x = some (i + l.indexOf x) := by
  intro l
  induction l with
  | nil => intro i m x _ hx; cases hx
  | cons a l ih =>
    intro i m x hnd hx
    by_cases hxa : x = a
    · subst hxa
      have hnotin : x ∉ l := (List.nodup_cons.mp hnd).1
      rw [buildPos, buildPos_not_mem _ _ _ _ hnotin]
      simp [List.indexOf_cons_self]
    · rcases List.mem_cons.mp hx with h' | h'
      · exact absurd h' hxa
      · rw [buildPos, ih _ _ _ (List.nodup_cons.mp hnd).2 h',
          List.indexOf_cons_ne _ (Ne.symm hxa)]
        simp
        omega

theorem posMap_eq {order : List Nat} (hnd : order.Nodup) {x : Nat} (hx : x ∈ order) :
    posMap order x = some (order.indexOf x) := by
  simpa using buildPos_mem order 0 (fun _ => none) x hnd hx

theorem posMap_not_mem {order : List Nat} {x : Nat} (hx : x ∉ order) :
    posMap order x = none :=
  buildPos_not_mem order 0 (fun _ => none) x hx

theorem checkEdges_some_true_iff (g : Graph) (pos : Nat → Option Nat) :
    ∀ l : List (Nat × Nat),
      (checkEdges g pos l = some true ↔
        ∀ uv ∈ l, edgeB g uv.1 uv.2 = true →
          ∃ pu pv, pos uv.1 = some pu ∧ pos uv.2 = some pv ∧ pu < pv) := by
  intro l
  induction l with
  | nil => simp [checkEdges]
  | cons a l ih =>
    obtain ⟨u, v⟩ := a
    rcases hed : edgeB g u v with _ | _
    · rw [show checkEdges g pos ((u, v) :: l) = checkEdges g pos l by
        simp [checkEdges, hed]]
      rw [ih]
      constructor
      · intro h uv huv he
        rcases List.mem_cons.mp huv with heq | huv'
        · exfalso
          rw [heq] at he
          simp only at he
          rw [hed] at he
          cases he
        · exact h uv huv' he
      · intro h uv huv he
        exact h uv (List.mem_cons_of_mem _ huv) he
    · rcases hpu : pos u with _ | pu
      · rw [show checkEdges g pos ((u, v) :: l) = none by simp [checkEdges, hed, hpu]]
        constructor
        · intro h
          cases h
        · intro h
          rcases h (u, v) (List.mem_cons_self _ _) hed with ⟨pu', pv', hpu', _, _⟩
          rw [hpu] at hpu'
          cases hpu'
      · rcases hpv : pos v with _ | pv
        · rw [show checkEdges g pos ((u, v) :: l) = none by simp [checkEdges, hed, hpu, hpv]]
          constructor
          · intro h
            cases h
          · intro h
            rcases h (u, v) (List.mem_cons_self _ _) hed with ⟨pu', pv', _, hpv', _⟩
            rw [hpv] at hpv'
            cases hpv'
        · by_cases hle : pv ≤ pu
          · rw [show checkEdges g pos ((u, v) :: l) = some false by
              simp [checkEdges, hed, hpu, hpv, hle]]
            constructor
            · intro h
              cases h
            · intro h
              rcases h (u, v) (List.mem_cons_self _ _) hed with ⟨pu', pv', hpu', hpv', hlt⟩
              rw [hpu] at hpu'
              rw [hpv] at hpv'
              injection hpu' with hpu'
              injection hpv' with hpv'
              omega
          · rw [show checkEdges g pos ((u, v) :: l) = checkEdges g pos l by
              simp [checkEdges, hed, hpu, hpv, hle]]
            rw [ih]
            constructor
            · intro h uv huv he
              rcases List.mem_cons.mp huv with heq | huv'
              · subst heq
                exact ⟨pu, pv, hpu, hpv, by omega⟩
              · exact h uv huv' he
            · intro h uv huv he
              exact h uv (List.mem_cons_of_mem _ huv) he

theorem mem_allPairs {n : Nat} {u v : Nat} : (u, v) ∈ allPairs n ↔ u < n ∧ v < n := by
  have key : ∀ (l : List Nat),
      ((u, v) ∈ l.foldr (fun u acc => ((List.range n).map (fun v => (u, v))) ++ acc) [] ↔
        u ∈ l ∧ v < n) := by
    intro l
    induction l with
    | nil => simp
    | cons a l ih =>
      simp only [List.foldr_cons, List.mem_append, List.mem_map, ih, List.mem_cons]
      constructor
      · rintro (⟨w, hw, heq⟩ | ⟨hu, hv⟩)
        · injection heq with h1 h2
          subst h1
          subst h2
          exact ⟨Or.inl rfl, List.mem_range.mp hw⟩
        · exact ⟨Or.inr hu, hv⟩
      · rintro ⟨rfl | hu, hv⟩
        · exact Or.inl ⟨v, List.mem_range.mpr hv, rfl⟩
        · exact Or.inr ⟨hu, hv⟩
  have := key (List.range n)
  simpa [allPairs, List.mem_range] using this

/-- The `is_valid_topo` checker, characterised on permutations of `0..N-1`:
it returns `True` exactly when every edge goes forward in the ordering. -/
theorem is_valid_topo_some_true_iff {g : Graph} {order : List Nat}
    (hperm : order.Perm (List.range g.length)) :
    is_valid_topo g order = some true ↔
      ∀ u v, u < g.length → v < g.length → edgeB g u v = true →
        order.indexOf u < order.indexOf v := by
  have hnd : order.Nodup := hperm.nodup_iff.mpr (List.nodup_range _)
  have hmem : ∀ x, x ∈ order ↔ x < g.length := by
    intro x
    rw [hperm.mem_iff, List.mem_range]
  rw [is_valid_topo, checkEdges_some_true_iff]
  constructor
  · intro h u v hu hv he
    rcases h (u, v) (mem_allPairs.mpr ⟨hu, hv⟩) he with ⟨pu, pv, hpu, hpv, hlt⟩
    rw [posMap_eq hnd ((hmem u).mpr hu)] at hpu
    rw [posMap_eq hnd ((hmem v).mpr hv)] at hpv
    injection hpu with hpu
    injection hpv with hpv
    omega
  · intro h uv huv he
    rcases mem_allPairs.mp huv with ⟨hu, hv⟩
    exact ⟨order.indexOf uv.1, order.indexOf uv.2,
      posMap_eq hnd ((hmem uv.1).mpr hu), posMap_eq hnd ((hmem uv.2).mpr hv),
      h uv.1 uv.2 hu hv he⟩

/-! ### `sortDesc` : stable descending sort facts -/

theorem insertDesc_perm {α : Type} [LinearOrder α] (key : Nat → α) :
    ∀ (l : List Nat) (v : Nat), (insertDesc key l v).Perm (v :: l) := by
  intro l
  induction l with
  | nil => intro v; rfl
  | cons u rest ih =>
    intro v
    rw [insertDesc]
    by_cases h : key u < key v
    · rw [if_pos h]
    · rw [if_neg h]
      exact ((ih v).cons u).trans (List.Perm.swap v u rest)

theorem sortDesc_perm {α : Type} [LinearOrder α] (key : Nat → α) (l : List Nat) :
    (sortDesc key l).Perm l := by
  have key' : ∀ (l acc : List Nat), (l.foldl (insertDesc key) acc).Perm (acc ++ l) := by
    intro l
    induction l with
    | nil => intro acc; simp
    | cons a l ih =>
      intro acc
      refine ((ih (insertDesc key acc a)).trans ?_)
      exact ((insertDesc_perm key acc a).append_right l).trans List.perm_middle.symm
  simpa using key' l []

theorem insertDesc_pairwise {α : Type} [LinearOrder α] (key : Nat → α) :
    ∀ (l : List Nat) (v : Nat), l.Pairwise (fun a b => key b ≤ key a) →
      (insertDesc key l v).Pairwise (fun a b => key b ≤ key a) := by
  intro l
  induction l with
  | nil =>
    intro v _
    exact List.pairwise_singleton _ v
  | cons u rest ih =>
    intro v hp
    rcases List.pairwise_cons.mp hp with ⟨hu, hrest⟩
    rw [insertDesc]
    by_cases h : key u < key v
    · rw [if_pos h]
      refine List.pairwise_cons.mpr ⟨?_, hp⟩
      intro b hb
      rcases List.mem_cons.mp hb with rfl | hb'
      · exact le_of_lt h
      · exact le_trans (hu b hb') (le_of_lt h)
    · rw [if_neg h]
      refine List.pairwise_cons.mpr ⟨?_, ih v hrest⟩
      intro b hb
      have hb' : b ∈ v :: rest := (insertDesc_perm key rest v).mem_iff.mp hb
      rcases List.mem_cons.mp hb' with rfl | hb''
      · exact le_of_not_lt h
      · exact hu b hb''

theorem sortDesc_pairwise {α : Type} [LinearOrder α] (key : Nat → α) (l : List Nat) :
    (sortDesc key l).Pairwise (fun a b => key b ≤ key a) := by
  have key' : ∀ (l acc : List Nat), acc.Pairwise (fun a b => key b ≤ key a) →
      (l.foldl (insertDesc key) acc).Pairwise (fun a b => key b ≤ key a) := by
    intro l
    induction l with
    | nil => intro acc h; simpa using h
    | cons a l ih => intro acc h; exact ih _ (insertDesc_pairwise key acc a h)
  exact key' l [] (by simp)

theorem indexOf_lt_of_pairwise {α : Type} [LinearOrder α] (key : Nat → α) :
    ∀ (l : List Nat), l.Pairwise (fun a b => key b ≤ key a) →
      ∀ u v, u ∈ l → v ∈ l → key v < key u → l.indexOf u < l.indexOf v := by
  intro l
  induction l with
  | nil => intro _ u v hu; cases hu
  | cons a l ih =>
    intro hp u v hu hv hlt
    rcases List.pairwise_cons.mp hp with ⟨ha, hrest⟩
    by_cases hua : u = a
    · subst hua
      have hva : v ≠ u := by
        rintro rfl
        exact lt_irrefl _ hlt
      have hv' : v ∈ l := by
        rcases List.mem_cons.mp hv with h' | h'
        · exact absurd h' hva
        · exact h'
      rw [List.indexOf_cons_self, List.indexOf_cons_ne _ (Ne.symm hva)]
      omega
    · have hu' : u ∈ l := by
        rcases List.mem_cons.mp hu with h' | h'
        · exact absurd h' hua
        · exact h'
      have hva : v ≠ a := by
        rintro rfl
        exact absurd (ha u hu') (not_le.mpr hlt)
      have hv' : v ∈ l := by
        rcases List.mem_cons.mp hv with h' | h'
        · exact absurd h' hva
        · exact h'
      rw [List.indexOf_cons_ne _ (Ne.symm hua), List.indexOf_cons_ne _ (Ne.symm hva)]
      exact Nat.succ_lt_succ (ih hrest u v hu' hv' hlt)

theorem sortDesc_indexOf_lt {α : Type} [LinearOrder α] (key : Nat → α) (l : List Nat)
    {u v : Nat} (hu : u ∈ l) (hv : v ∈ l) (h : key v < key u) :
    (sortDesc key l).indexOf u < (sortDesc key l).indexOf v :=
  indexOf_lt_of_pairwise key _ (sortDesc_pairwise key l)
    u v ((sortDesc_perm key l).mem_iff.mpr hu) ((sortDesc_perm key l).mem_iff.mpr hv) h

theorem contains_true_iff (l : List Nat) (x : Nat) : l.contains x = true ↔ x ∈ l := by
  simp

theorem contains_false_iff (l : List Nat) (x : Nat) : l.contains x = false ↔ x ∉ l := by
  rw [← Bool.not_eq_true, not_iff_not]
  exact contains_true_iff l x

namespace Kahn

/-! ### Invariants of Kahn's algorithm -/

theorem countPreds_append (g : Graph) {order : List Nat} {v : Nat}
    (hv : v < g.length) (hvo : v ∉ order) (w : Nat) :
    countPreds g order w =
      countPreds g (order ++ [v]) w + (if edgeB g v w = true then 1 else 0) := by
  have hagree : ∀ u ∈ List.range g.length, u ≠ v →
      (fun u => edgeB g u w && !(order.contains u)) u =
        (fun u => edgeB g u w && !((order ++ [v]).contains u)) u := by
    intro u _ huv
    have : (order ++ [v]).contains u = order.contains u := by
      rcases hmem : order.contains u with _ | _
      · rw [contains_false_iff] at hmem
        rw [contains_false_iff]
        intro hmem'
        rcases List.mem_append.mp hmem' with h' | h'
        · exact hmem h'
        · exact huv (by simpa using h')
      · rw [contains_true_iff] at hmem
        rw [contains_true_iff]
        exact List.mem_append.mpr (Or.inl hmem)
    simp only [this]
  rcases hew : edgeB g v w with _ | _
  · simp only [Bool.false_eq_true, if_false, Nat.add_zero]
    unfold countPreds
    congr 1
    apply List.filter_congr
    intro u hu
    by_cases huv : u = v
    · subst huv
      simp [hew]
    · simpa using hagree u hu huv
  · simp only [hew, if_true]
    have hflip := length_filter_flip (List.nodup_range g.length)
      (p := fun u => edgeB g u w && !(order.contains u))
      (q := fun u => edgeB g u w && !((order ++ [v]).contains u))
      (v := v) (List.mem_range.mpr hv)
      (by simp [hew, contains_false_iff, hvo])
      (by simp [hew])
      hagree
    unfold countPreds
    unfold countPreds at hflip
    omega

/-- Effect of the inner `for w in range(N)` update pass of one loop
iteration. -/
theorem khanFold_spec (g : Graph) (v : Nat) (order : List Nat)
    (hv : v < g.length) :
    ∀ ws : List Nat, ws.Nodup → (∀ w ∈ ws, w < g.length) →
    ∀ ind q,
      ind.length = g.length →
      (∀ w, w < g.length → ind.getD w 0 =
        (countPreds g (order ++ [v]) w : Int) +
          (if edgeB g v w = true ∧ w ∈ ws then 1 else 0)) →
      q.Nodup → (∀ x ∈ q, x < g.length) → (∀ x ∈ q, x ∉ order ++ [v]) →
      (∀ w, w < g.length → (ind.getD w 0 = 0 ↔ w ∈ q ∨ w ∈ order ++ [v])) →
      ((ws.foldl (khanStep g v) (ind, q)).1.length = g.length ∧
       (∀ w, w < g.length → (ws.foldl (khanStep g v) (ind, q)).1.getD w 0 =
         (countPreds g (order ++ [v]) w : Int)) ∧
       (ws.foldl (khanStep g v) (ind, q)).2.Nodup ∧
       (∀ x ∈ (ws.foldl (khanStep g v) (ind, q)).2, x < g.length) ∧
       (∀ x ∈ (ws.foldl (khanStep g v) (ind, q)).2, x ∉ order ++ [v]) ∧
       (∀ w, w < g.length → ((ws.foldl (khanStep g v) (ind, q)).1.getD w 0 = 0 ↔
         w ∈ (ws.foldl (khanStep g v) (ind, q)).2 ∨ w ∈ order ++ [v]))) := by
  intro ws
  induction ws with
  | nil =>
    intro _ _ ind q hlen hcount hqnd hqlt hqdisj hzero
    refine ⟨hlen, ?_, hqnd, hqlt, hqdisj, hzero⟩
    intro w hw
    have := hcount w hw
    simpa using this
  | cons w0 ws ih =>
    intro hnd hlt ind q hlen hcount hqnd hqlt hqdisj hzero
    have hw0 : w0 < g.length := hlt w0 (List.mem_cons_self _ _)
    have hw0nd : w0 ∉ ws := (List.nodup_cons.mp hnd).1
    rw [List.foldl_cons]
    rcases hed : edgeB g v w0 with _ | _
    · have hstep : khanStep g v (ind, q) w0 = (ind, q) := by
        simp [khanStep, hed]
      rw [hstep]
      apply ih (List.nodup_cons.mp hnd).2 (fun w hw => hlt w (List.mem_cons_of_mem _ hw))
        ind q hlen ?_ hqnd hqlt hqdisj hzero
      intro w hw
      rw [hcount w hw]
      by_cases hww : w = w0
      · subst hww
        simp [hed]
      · have : (edgeB g v w = true ∧ w ∈ w0 :: ws) ↔ (edgeB g v w = true ∧ w ∈ ws) := by
          constructor
          · rintro ⟨h1, h2⟩
            rcases List.mem_cons.mp h2 with h' | h'
            · exact absurd h' hww
            · exact ⟨h1, h'⟩
          · rintro ⟨h1, h2⟩
            exact ⟨h1, List.mem_cons_of_mem _ h2⟩
        rw [if_congr this rfl rfl]
    · -- an edge v -> w0 : decrement in_degrees[w0]
      have hindw0 : ind.getD w0 0 = (countPreds g (order ++ [v]) w0 : Int) + 1 := by
        rw [hcount w0 hw0]
        simp [hed]
      have hne0 : ind.getD w0 0 ≠ 0 := by
        rw [hindw0]
        omega
      have hw0q : w0 ∉ q ∧ w0 ∉ order ++ [v] := by
        constructor
        · intro hmem
          exact hne0 ((hzero w0 hw0).mpr (Or.inl hmem))
        · intro hmem
          exact hne0 ((hzero w0 hw0).mpr (Or.inr hmem))
      have hsetlen : (ind.set w0 (ind.getD w0 0 - 1)).length = g.length := by
        rw [List.length_set]
        exact hlen
      have hsetw0 : (ind.set w0 (ind.getD w0 0 - 1)).getD w0 0 =
          (countPreds g (order ++ [v]) w0 : Int) := by
        rw [getD_set_self _ _ _ _ (by rw [hlen]; exact hw0), hindw0]
        omega
      have hsetne : ∀ w, w ≠ w0 →
          (ind.set w0 (ind.getD w0 0 - 1)).getD w 0 = ind.getD w 0 := by
        intro w hww
        exact getD_set_ne _ _ _ (fun h => hww h.symm)
      have hcount' : ∀ w, w < g.length →
          (ind.set w0 (ind.getD w0 0 - 1)).getD w 0 =
            (countPreds g (order ++ [v]) w : Int) +
              (if edgeB g v w = true ∧ w ∈ ws then 1 else 0) := by
        intro w hw
        by_cases hww : w = w0
        · subst hww
          rw [hsetw0]
          simp [hw0nd]
        · rw [hsetne w hww, hcount w hw]
          congr 1
          apply if_congr _ rfl rfl
          constructor
          · rintro ⟨h1, h2⟩
            rcases List.mem_cons.mp h2 with h' | h'
            · exact absurd h' hww
            · exact ⟨h1, h'⟩
          · rintro ⟨h1, h2⟩
            exact ⟨h1, List.mem_cons_of_mem _ h2⟩
      by_cases hz : (ind.set w0 (ind.getD w0 0 - 1)).getD w0 0 = 0
      · have hstep : khanStep g v (ind, q) w0 =
            (ind.set w0 (ind.getD w0 0 - 1), q ++ [w0]) := by
          simp only [khanStep, hed]
          rw [if_pos trivial]
          simp only [hz]
          rw [if_pos trivial]
        rw [hstep]
        apply ih (List.nodup_cons.mp hnd).2 (fun w hw => hlt w (List.mem_cons_of_mem _ hw))
          _ _ hsetlen hcount'
        · rw [List.nodup_append]
          exact ⟨hqnd, List.nodup_singleton w0,
            fun x hx hx' => hw0q.1 ((by simpa using hx') ▸ hx)⟩
        · intro x hx
          rcases List.mem_append.mp hx with h' | h'
          · exact hqlt x h'
          · have : x = w0 := by simpa using h'
            subst this
            exact hw0
        · intro x hx
          rcases List.mem_append.mp hx with h' | h'
          · exact hqdisj x h'
          · have : x = w0 := by simpa using h'
            subst this
            exact hw0q.2
        · intro w hw
          by_cases hww : w = w0
          · subst hww
            rw [hz]
            simp
          · rw [hsetne w hww]
            rw [hzero w hw]
            constructor
            · rintro (h' | h')
              · exact Or.inl (List.mem_append.mpr (Or.inl h'))
              · exact Or.inr h'
            · rintro (h' | h')
              · rcases List.mem_append.mp h' with h'' | h''
                · exact Or.inl h''
                · exact absurd (by simpa using h'') hww
              · exact Or.inr h'
      · have hstep : khanStep g v (ind, q) w0 =
            (ind.set w0 (ind.getD w0 0 - 1), q) := by
          simp only [khanStep, hed]
          rw [if_pos trivial]
          rw [if_neg hz]
        rw [hstep]
        apply ih (List.nodup_cons.mp hnd).2 (fun w hw => hlt w (List.mem_cons_of_mem _ hw))
          _ _ hsetlen hcount' hqnd hqlt hqdisj
        intro w hw
        by_cases hww : w = w0
        · subst hww
          constructor
          · intro h'
            exact absurd h' hz
          · rintro (h' | h')
            · exact absurd h' hw0q.1
            · exact absurd h' hw0q.2
        · rw [hsetne w hww]
          exact hzero w hw

/-- The inner loop of the in-degree computation adds one to slot `w` exactly
when there is an edge `u -> w` and `w` is among the scanned columns. -/
theorem initInDegrees_inner (g : Graph) (u : Nat) :
    ∀ (vs : List Nat), vs.Nodup → (∀ v ∈ vs, v < g.length) →
    ∀ acc : List Int, acc.length = g.length →
      ((vs.foldl (fun acc2 v => if edgeB g u v then acc2.set v (acc2.getD v 0 + 1) else acc2)
          acc).length = g.length ∧
       ∀ w, (vs.foldl (fun acc2 v => if edgeB g u v then acc2.set v (acc2.getD v 0 + 1) else acc2)
          acc).getD w 0 = acc.getD w 0 + (if edgeB g u w = true ∧ w ∈ vs then 1 else 0)) := by
  intro vs
  induction vs with
  | nil =>
    intro _ _ acc hlen
    refine ⟨hlen, ?_⟩
    intro w
    simp
  | cons v0 vs ih =>
    intro hnd hlt acc hlen
    have hv0 : v0 < g.length := hlt v0 (List.mem_cons_self _ _)
    have hv0nd : v0 ∉ vs := (List.nodup_cons.mp hnd).1
    rw [List.foldl_cons]
    by_cases hed : edgeB g u v0 = true
    · rw [if_pos hed]
      rcases ih (List.nodup_cons.mp hnd).2 (fun v hv => hlt v (List.mem_cons_of_mem _ hv))
        (acc.set v0 (acc.getD v0 0 + 1)) (by rw [List.length_set]; exact hlen) with ⟨h1, h2⟩
      refine ⟨h1, ?_⟩
      intro w
      rw [h2 w]
      by_cases hww : w = v0
      · subst hww
        rw [getD_set_self _ _ _ _ (by rw [hlen]; exact hv0)]
        simp [hed, hv0nd]
      · rw [getD_set_ne _ _ _ (fun h => hww h.symm)]
        congr 1
        apply if_congr _ rfl rfl
        constructor
        · rintro ⟨h3, h4⟩
          exact ⟨h3, List.mem_cons_of_mem _ h4⟩
        · rintro ⟨h3, h4⟩
          rcases List.mem_cons.mp h4 with h5 | h5
          · exact absurd h5 hww
          · exact ⟨h3, h5⟩
    · rw [if_neg hed]
      rcases ih (List.nodup_cons.mp hnd).2 (fun v hv => hlt v (List.mem_cons_of_mem _ hv))
        acc hlen with ⟨h1, h2⟩
      refine ⟨h1, ?_⟩
      intro w
      rw [h2 w]
      congr 1
      apply if_congr _ rfl rfl
      constructor
      · rintro ⟨h3, h4⟩
        exact ⟨h3, List.mem_cons_of_mem _ h4⟩
      · rintro ⟨h3, h4⟩
        rcases List.mem_cons.mp h4 with h5 | h5
        · subst h5
          exact absurd h3 hed
        · exact ⟨h3, h5⟩

theorem initInDegrees_spec (g : Graph) :
    (initInDegrees g).length = g.length ∧
    ∀ w, w < g.length → (initInDegrees g).getD w 0 = (countPreds g [] w : Int) := by
  have key : ∀ (us : List Nat), (∀ u ∈ us, True) →
      ∀ acc : List Int, acc.length = g.length →
        ((us.foldl (fun acc u => (List.range g.length).foldl
            (fun acc2 v => if edgeB g u v then acc2.set v (acc2.getD v 0 + 1) else acc2) acc)
            acc).length = g.length ∧
         ∀ w, w < g.length →
           (us.foldl (fun acc u => (List.range g.length).foldl
              (fun acc2 v => if edgeB g u v then acc2.set v (acc2.getD v 0 + 1) else acc2) acc)
              acc).getD w 0 =
             acc.getD w 0 + ((us.filter (fun u => edgeB g u w)).length : Int)) := by
    intro us
    induction us with
    | nil =>
      intro _ acc hlen
      refine ⟨hlen, ?_⟩
      intro w _
      simp
    | cons u0 us ih =>
      intro _ acc hlen
      rw [List.foldl_cons]
      rcases initInDegrees_inner g u0 (List.range g.length) (List.nodup_range _)
        (fun v hv => List.mem_range.mp hv) acc hlen with ⟨h1, h2⟩
      rcases ih (fun _ _ => trivial) _ h1 with ⟨h3, h4⟩
      refine ⟨h3, ?_⟩
      intro w hw
      rw [h4 w hw, h2 w]
      rw [List.filter_cons]
      rcases hed : edgeB g u0 w with _ | _
      · simp [hed, List.mem_range, hw]
      · simp [hed, List.mem_range, hw]
        omega
  rcases key (List.range g.length) (fun _ _ => trivial) (List.replicate g.length (0 : Int))
    (by simp) with ⟨h1, h2⟩
  refine ⟨h1, ?_⟩
  intro w hw
  rw [initInDegrees, h2 w hw, getD_replicate]
  have : (List.range g.length).filter (fun u => edgeB g u w) =
      (List.range g.length).filter (fun u => edgeB g u w && !(List.contains [] u)) := by
    apply List.filter_congr
    intro u _
    simp
  rw [countPreds, ← this]
  omega

theorem initSources_eq (indeg : List Int) (n : Nat) :
    initSources indeg n = (List.range n).filter (fun i => decide (indeg.getD i 0 = 0)) := by
  have key : ∀ (l : List Nat) (acc : List Nat),
      l.foldl (fun s i => if indeg.getD i 0 = 0 then s ++ [i] else s) acc
        = acc ++ l.filter (fun i => decide (indeg.getD i 0 = 0)) := by
    intro l
    induction l with
    | nil => intro acc; simp
    | cons a l ih =>
      intro acc
      rw [List.foldl_cons, List.filter_cons]
      by_cases h : indeg.getD a 0 = 0
      · rw [if_pos h, ih, if_pos (decide_eq_true h)]
        simp
      · rw [if_neg h, ih, if_neg (fun hc => h (of_decide_eq_true hc))]
  rw [initSources, key]
  simp

/-- The state of `khan` entering the main loop satisfies the invariant. -/
theorem khanInit_inv (g : Graph) :
    KhanInv g (initSources (initInDegrees g) g.length) (initInDegrees g) [] := by
  rcases initInDegrees_spec g with ⟨hlen, hcount⟩
  have hmem : ∀ x, x ∈ initSources (initInDegrees g) g.length ↔
      x < g.length ∧ (initInDegrees g).getD x 0 = 0 := by
    intro x
    rw [initSources_eq, List.mem_filter, List.mem_range]
    simp
  refine ⟨hlen, List.nodup_nil, by simp, ?_, ?_, ?_, hcount, ?_, ?_⟩
  · rw [initSources_eq]
    exact (List.nodup_range _).filter _
  · intro x hx
    exact ((hmem x).mp hx).1
  · intro x _
    simp
  · intro w hw
    constructor
    · intro h
      exact Or.inl ((hmem w).mpr ⟨hw, h⟩)
    · rintro (h | h)
      · exact ((hmem w).mp h).2
      · cases h
  · intro u w _ hw
    cases hw

/-- What holds when the loop exits with an empty queue. -/
theorem khanLoop_done (g : Graph) {indeg : List Int} {order : List Nat}
    (hInv : KhanInv g [] indeg order) :
    order.Nodup ∧ (∀ x ∈ order, x < g.length) ∧
    (∀ u w, edgeB g u w = true → w ∈ order →
      u ∈ order ∧ order.indexOf u < order.indexOf w) ∧
    (∀ w, w < g.length → w ∉ order →
      ∃ u, u < g.length ∧ u ∉ order ∧ edgeB g u w = true) := by
  obtain ⟨hlen, hond, holt, _, _, _, hcount, hzero, hclos⟩ := hInv
  refine ⟨hond, holt, hclos, ?_⟩
  intro w hw hwo
  have hne : indeg.getD w 0 ≠ 0 := by
    intro h
    rcases (hzero w hw).mp h with h' | h'
    · cases h'
    · exact hwo h'
  rw [hcount w hw] at hne
  have hcp : countPreds g order w ≠ 0 := by
    intro h
    rw [h] at hne
    exact hne rfl
  rw [countPreds] at hcp
  have hnil : (List.range g.length).filter (fun u => edgeB g u w && !(order.contains u)) ≠ [] := by
    intro h
    rw [h] at hcp
    exact hcp rfl
  rcases List.exists_mem_of_ne_nil _ hnil with ⟨u, hu⟩
  rcases List.mem_filter.mp hu with ⟨hur, hup⟩
  rw [Bool.and_eq_true] at hup
  obtain ⟨hue, huc⟩ := hup
  refine ⟨u, List.mem_range.mp hur, ?_, hue⟩
  rw [Bool.not_eq_true', contains_false_iff] at huc
  exact huc

/-- Main loop lemma: with the invariant and enough fuel the loop returns a
duplicate-free list of vertices closed under predecessors, extending the
current output; unemitted vertices always retain an unemitted predecessor. -/
theorem khanLoop_spec (g : Graph) (hWF : WFP g) :
    ∀ (fuel : Nat) (sources : List Nat) (indeg : List Int) (order : List Nat),
      KhanInv g sources indeg order →
      g.length ≤ fuel + order.length →
      ∃ fin, khanLoop g fuel sources indeg order = some fin ∧
        (∃ ext, fin = order ++ ext) ∧
        fin.Nodup ∧ (∀ x ∈ fin, x < g.length) ∧
        (∀ u w, edgeB g u w = true → w ∈ fin →
          u ∈ fin ∧ fin.indexOf u < fin.indexOf w) ∧
        (∀ w, w < g.length → w ∉ fin →
          ∃ u, u < g.length ∧ u ∉ fin ∧ edgeB g u w = true) := by
  intro fuel
  induction fuel with
  | zero =>
    intro sources indeg order hInv hfuel
    match sources with
    | [] =>
      rcases khanLoop_done g hInv with ⟨h1, h2, h3, h4⟩
      exact ⟨order, rfl, ⟨[], by simp⟩, h1, h2, h3, h4⟩
    | v :: rest =>
      exfalso
      obtain ⟨_, hond, holt, _, hslt, hsdisj, _, _, _⟩ := hInv
      have hv : v < g.length := hslt v (List.mem_cons_self _ _)
      have hvo : v ∉ order := hsdisj v (List.mem_cons_self _ _)
      have hperm : order.Perm (List.range g.length) :=
        perm_range_of hond holt (by omega)
      exact hvo (hperm.mem_iff.mpr (List.mem_range.mpr hv))
  | succ fuel ih =>
    intro sources indeg order hInv hfuel
    match sources with
    | [] =>
      rcases khanLoop_done g hInv with ⟨h1, h2, h3, h4⟩
      exact ⟨order, rfl, ⟨[], by simp⟩, h1, h2, h3, h4⟩
    | v :: rest =>
      obtain ⟨hlen, hond, holt, hsnd, hslt, hsdisj, hcount, hzero, hclos⟩ := hInv
      have hv : v < g.length := hslt v (List.mem_cons_self _ _)
      have hvo : v ∉ order := hsdisj v (List.mem_cons_self _ _)
      have hvrest : v ∉ rest := (List.nodup_cons.mp hsnd).1
      -- in_degrees[v] is 0, so v has no unemitted predecessor
      have hv0 : countPreds g order v = 0 := by
        have := (hzero v hv).mpr (Or.inl (List.mem_cons_self _ _))
        rw [hcount v hv] at this
        omega
      have hpredv : ∀ u, edgeB g u v = true → u ∈ order := by
        intro u hue
        have hult : u < g.length := (edgeB_lt hWF hue).1
        by_contra huo
        have hmemf : u ∈ (List.range g.length).filter
            (fun u => edgeB g u v && !(order.contains u)) := by
          rw [List.mem_filter]
          refine ⟨List.mem_range.mpr hult, ?_⟩
          rw [hue, Bool.true_and, Bool.not_eq_true', contains_false_iff]
          exact huo
        rw [countPreds] at hv0
        rw [List.length_eq_zero] at hv0
        rw [hv0] at hmemf
        cases hmemf
      -- run the update pass
      have hfold := khanFold_spec g v order hv (List.range g.length)
        (List.nodup_range _) (fun w hw => List.mem_range.mp hw) indeg rest hlen
        (by
          intro w hw
          rw [hcount w hw]
          have := countPreds_append g hv hvo w
          rcases hew : edgeB g v w with _ | _
          · rw [hew] at this
            simp only [Bool.false_eq_true, if_false, Nat.add_zero] at this
            rw [this]
            simp [hew]
          · rw [hew] at this
            simp only [if_pos rfl] at this
            rw [this]
            have hmem : w ∈ List.range g.length := List.mem_range.mpr hw
            simp [hew, hmem])
        (List.nodup_cons.mp hsnd).2
        (fun x hx => hslt x (List.mem_cons_of_mem _ hx))
        (by
          intro x hx
          intro hmem
          rcases List.mem_append.mp hmem with h' | h'
          · exact hsdisj x (List.mem_cons_of_mem _ hx) h'
          · have : x = v := by simpa using h'
            subst this
            exact hvrest hx)
        (by
          intro w hw
          rw [hzero w hw]
          constructor
          · rintro (h' | h')
            · rcases List.mem_cons.mp h' with h'' | h''
              · subst h''
                exact Or.inr (List.mem_append.mpr (Or.inr (by simp)))
              · exact Or.inl h''
            · exact Or.inr (List.mem_append.mpr (Or.inl h'))
          · rintro (h' | h')
            · exact Or.inl (List.mem_cons_of_mem _ h')
            · rcases List.mem_append.mp h' with h'' | h''
              · exact Or.inr h''
              · have : w = v := by simpa using h''
                subst this
                exact Or.inl (List.mem_cons_self _ _))
      obtain ⟨hf1, hf2, hf3, hf4, hf5, hf6⟩ := hfold
      -- the new state satisfies the invariant
      have hInv' : KhanInv g ((List.range g.length).foldl (khanStep g v) (indeg, rest)).2
          ((List.range g.length).foldl (khanStep g v) (indeg, rest)).1 (order ++ [v]) := by
        refine ⟨hf1, ?_, ?_, hf3, hf4, hf5, hf2, hf6, ?_⟩
        · rw [List.nodup_append]
          exact ⟨hond, List.nodup_singleton v, fun x hx hx' => hvo ((by simpa using hx') ▸ hx)⟩
        · intro x hx
          rcases List.mem_append.mp hx with h' | h'
          · exact holt x h'
          · have : x = v := by simpa using h'
            subst this
            exact hv
        · intro u w hue hw
          rcases List.mem_append.mp hw with h' | h'
          · rcases hclos u w hue h' with ⟨hu1, hu2⟩
            refine ⟨List.mem_append.mpr (Or.inl hu1), ?_⟩
            rw [indexOf_append_left hu1, indexOf_append_left h']
            exact hu2
          · have : w = v := by simpa using h'
            subst this
            have hu1 : u ∈ order := hpredv u hue
            refine ⟨List.mem_append.mpr (Or.inl hu1), ?_⟩
            rw [indexOf_append_left hu1, indexOf_append_right hvo]
            have : order.indexOf u < order.length := List.indexOf_lt_length.mpr hu1
            simp [List.indexOf_cons_self]
            omega
      have hrec := ih _ _ _ hInv' (by rw [List.length_append, List.length_singleton]; omega)
      obtain ⟨fin, hfin, ⟨ext, hext⟩, hfnd, hflt, hfclos, hfstuck⟩ := hrec
      refine ⟨fin, ?_, ⟨v :: ext, by rw [hext, List.append_assoc]; rfl⟩,
        hfnd, hflt, hfclos, hfstuck⟩
      rw [show khanLoop g (fuel + 1) (v :: rest) indeg order =
          khanLoop g fuel ((List.range g.length).foldl (khanStep g v) (indeg, rest)).2
            ((List.range g.length).foldl (khanStep g v) (indeg, rest)).1 (order ++ [v])
        from rfl]
      exact hfin

/-- Master correctness statement for `khan` on well-formed graphs. -/
theorem khan_master (g : Graph) (hWF : WFP g) :
    ∃ fin, khan g = .ok fin ∧ fin.Nodup ∧ (∀ x ∈ fin, x < g.length) ∧
      (∀ u w, edgeB g u w = true → w ∈ fin →
        u ∈ fin ∧ fin.indexOf u < fin.indexOf w) ∧
      (∀ w, w < g.length → w ∉ fin →
        ∃ u, u < g.length ∧ u ∉ fin ∧ edgeB g u w = true) := by
  have hinv : invalidB g = false := (WFP_iff_invalidB g).mp hWF
  rcases khanLoop_spec g hWF g.length (initSources (initInDegrees g) g.length)
    (initInDegrees g) [] (khanInit_inv g) (by simp) with
    ⟨fin, hloop, _, hfnd, hflt, hfclos, hfstuck⟩
  refine ⟨fin, ?_, hfnd, hflt, hfclos, hfstuck⟩
  rw [khan, hinv]
  simp only [Bool.false_eq_true, if_false]
  rw [hloop]

/-- If every unemitted vertex keeps an unemitted predecessor and some vertex
is unemitted, the graph has a directed cycle. -/
theorem cycle_of_stuck (g : Graph) {fin : List Nat}
    (hstuck : ∀ w, w < g.length → w ∉ fin →
      ∃ u, u < g.length ∧ u ∉ fin ∧ edgeB g u w = true)
    {w0 : Nat} (hw0 : w0 < g.length) (hw0n : w0 ∉ fin) :
    ¬ Acyclic g := by
  intro hA
  have hstep : ∀ w : Nat, ∃ u : Nat, (w < g.length ∧ w ∉ fin) →
      (u < g.length ∧ u ∉ fin ∧ edgeB g u w = true) := by
    intro w
    by_cases hw : w < g.length ∧ w ∉ fin
    · rcases hstuck w hw.1 hw.2 with ⟨u, hu⟩
      exact ⟨u, fun _ => hu⟩
    · exact ⟨0, fun h => absurd h hw⟩
  choose f hf using hstep
  have hinv : ∀ k, f^[k] w0 < g.length ∧ f^[k] w0 ∉ fin := by
    intro k
    induction k with
    | zero => exact ⟨hw0, hw0n⟩
    | succ k ihk =>
      rw [Function.iterate_succ_apply']
      exact ⟨(hf _ ihk).1, (hf _ ihk).2.1⟩
  have hedge : ∀ k, edgeB g (f^[k + 1] w0) (f^[k] w0) = true := by
    intro k
    rw [Function.iterate_succ_apply']
    exact (hf _ (hinv k)).2.2
  have hpath : ∀ d k, Relation.TransGen (EdgeR g) (f^[k + d + 1] w0) (f^[k] w0) := by
    intro d
    induction d with
    | zero =>
      intro k
      exact Relation.TransGen.single (hedge k)
    | succ d ihd =>
      intro k
      have h1 := ihd (k + 1)
      have heq : k + 1 + d + 1 = k + (d + 1) + 1 := by omega
      rw [heq] at h1
      exact h1.trans (Relation.TransGen.single (hedge k))
  have key : ∀ a b : Nat, a < b → f^[a] w0 = f^[b] w0 → False := by
    intro a b hab heq
    have hb : b = a + (b - a - 1) + 1 := by omega
    have hp := hpath (b - a - 1) a
    rw [← hb] at hp
    rw [← heq] at hp
    exact hA _ hp
  have hcard : Fintype.card (Fin g.length) < Fintype.card (Fin (g.length + 1)) := by
    simp
  obtain ⟨i, j, hij, hfeq⟩ := Fintype.exists_ne_map_eq_of_card_lt
    (fun k : Fin (g.length + 1) => (⟨f^[k.val] w0, (hinv k.val).1⟩ : Fin g.length)) hcard
  have hfeq' : f^[i.val] w0 = f^[j.val] w0 := by
    have := congrArg Fin.val hfeq
    simpa using this
  rcases Nat.lt_or_ge i.val j.val with h' | h'
  · exact key i.val j.val h' hfeq'
  · rcases Nat.lt_or_ge j.val i.val with h'' | h''
    · exact key j.val i.val h'' hfeq'.symm
    · exact hij (Fin.ext (by omega))

/-- Under acyclicity every vertex is emitted, so the output is a
permutation of `0..N-1` with all edges going forward. -/
theorem khan_complete (g : Graph) (hWF : WFP g) (hA : Acyclic g) :
    ∃ fin, khan g = .ok fin ∧ fin.Perm (List.range g.length) ∧
      (∀ u w, edgeB g u w = true → w ∈ fin →
        u ∈ fin ∧ fin.indexOf u < fin.indexOf w) := by
  rcases khan_master g hWF with ⟨fin, hok, hnd, hlt, hclos, hstuck⟩
  have hall : ∀ w, w < g.length → w ∈ fin := by
    intro w hw
    by_contra hwn
    exact cycle_of_stuck g hstuck hw hwn hA
  have hlen : g.length ≤ fin.length := by
    have hsp : (List.range g.length).Subperm fin :=
      List.subperm_of_subset (List.nodup_range _)
        (fun x hx => hall x (List.mem_range.mp hx))
    simpa using hsp.length_le
  exact ⟨fin, hok, perm_range_of hnd hlt hlen, hclos⟩

end Kahn

namespace Kahn

theorem unvis_pos (g : Graph) (s : St) {v : Nat} (hv : v < g.length)
    (hnv : visB s v = false) : 0 < unvis g s := by
  have hmem : v ∈ (List.range g.length).filter (fun w => !(visB s w)) := by
    rw [List.mem_filter]
    refine ⟨List.mem_range.mpr hv, ?_⟩
    rw [hnv]
    rfl
  have hne : (List.range g.length).filter (fun w => !(visB s w)) ≠ [] := by
    intro h
    rw [h] at hmem
    cases hmem
  rw [unvis]
  exact List.length_pos.mpr hne

theorem unvis_le_of_mono (g : Graph) {s t : St}
    (h : ∀ w, visB s w = true → visB t w = true) : unvis g t ≤ unvis g s := by
  apply length_filter_le_of_imp
  intro x _ hx
  rcases hv : visB s x with _ | _
  · rfl
  · rw [h x hv] at hx
    cases hx

/-- Unfolding of `dfs` at positive fuel. -/
theorem dfs_succ (g : Graph) (fuel v : Nat) (s : St) :
    dfs g (fuel + 1) v s =
      ((List.range g.length).foldl
        (fun acc u => acc.bind fun st =>
          if edgeB g v u && !(st.visited.getD u false) then dfs g fuel u st else some st)
        (some { s with visited := s.visited.set v true })).map
        (fun st => { st with exit_time := st.exit_time.set v (st.time + 1),
                             time := st.time + 1 }) := rfl

/-- Main DFS lemma: with the invariant, a fresh vertex reachable from all
in-progress vertices, and enough fuel, `dfs` succeeds, finishes `v`,
preserves earlier exit times, and (on acyclic graphs) keeps exit times
strictly decreasing along edges. -/
theorem dfs_spec (g : Graph) (hWF : WFP g) :
    ∀ (fuel : Nat) (v : Nat) (s : St) (P : Nat → Prop),
      DfsInv g s P → v < g.length → visB s v = false →
      (∀ p, P p → Relation.ReflTransGen (EdgeR g) p v) →
      unvis g s ≤ fuel →
      ∃ s', dfs g fuel v s = some s' ∧ DfsInv g s' P ∧
        visB s' v = true ∧ finP s' v ∧
        (∀ w, visB s w = true → visB s' w = true) ∧
        (∀ w, finP s w → finP s' w ∧ exitv s' w = exitv s w) ∧
        s.time ≤ s'.time ∧
        (∀ w, ¬ finP s w → finP s' w → s.time < exitv s' w) ∧
        unvis g s' < unvis g s := by
  intro fuel
  induction fuel with
  | zero =>
    intro v s P hInv hv hnv hreach hfuel
    exact absurd hfuel (by
      have := unvis_pos g s hv hnv
      omega)
  | succ fuel ih =>
    intro v s P hInv hv hnv hreach hfuel
    obtain ⟨hlenV, hlenE, hvf, hPnf, hrange, hinj, hGEI⟩ := hInv
    have hPv : ¬ P v := by
      intro hp
      have h := (hvf v hv).mpr (Or.inr hp)
      rw [hnv] at h
      cases h
    have hfinv : ¬ finP s v := by
      intro hf
      have h := (hvf v hv).mpr (Or.inl hf)
      rw [hnv] at h
      cases h
    have hvis1 : ∀ w, visB { s with visited := s.visited.set v true } w =
        if w = v then true else visB s w := by
      intro w
      by_cases hwv : w = v
      · subst hwv
        rw [if_pos rfl]
        exact getD_set_self _ _ _ _ (by rw [hlenV]; exact hv)
      · rw [if_neg hwv]
        exact getD_set_ne _ _ _ (fun h => hwv h.symm)
    have hInv1 : DfsInv g { s with visited := s.visited.set v true }
        (fun w => P w ∨ w = v) := by
      refine ⟨by rw [List.length_set]; exact hlenV, hlenE, ?_, ?_, hrange, hinj, hGEI⟩
      · intro w hw
        rw [hvis1 w]
        by_cases hwv : w = v
        · subst hwv
          rw [if_pos rfl]
          constructor
          · intro _
            exact Or.inr (Or.inr rfl)
          · intro _
            rfl
        · rw [if_neg hwv, hvf w hw]
          constructor
          · rintro (h | h)
            · exact Or.inl h
            · exact Or.inr (Or.inl h)
          · rintro (h | h | h)
            · exact Or.inl h
            · exact Or.inr h
            · exact absurd h hwv
      · rintro w (hp | hp)
        · exact hPnf w hp
        · subst hp
          exact ⟨hv, hfinv⟩
    have hunvis1 : unvis g { s with visited := s.visited.set v true } + 1 = unvis g s := by
      apply length_filter_flip (List.nodup_range g.length) (List.mem_range.mpr hv)
      · rw [hnv]
        rfl
      · rw [hvis1 v, if_pos rfl]
        rfl
      · intro w _ hwv
        rw [hvis1 w, if_neg hwv]
    have Aux : ∀ (l : List Nat), (∀ u ∈ l, u < g.length) →
        ∀ st, DfsInv g st (fun w => P w ∨ w = v) → unvis g st ≤ fuel →
        ∃ s2, l.foldl
            (fun acc u => acc.bind fun st =>
              if edgeB g v u && !(st.visited.getD u false) then dfs g fuel u st else some st)
            (some st) = some s2 ∧
          DfsInv g s2 (fun w => P w ∨ w = v) ∧
          (∀ w, visB st w = true → visB s2 w = true) ∧
          (∀ w, finP st w → finP s2 w ∧ exitv s2 w = exitv st w) ∧
          st.time ≤ s2.time ∧
          (∀ w, ¬ finP st w → finP s2 w → st.time < exitv s2 w) ∧
          unvis g s2 ≤ unvis g st ∧
          (∀ u ∈ l, edgeB g v u = true → visB s2 u = true) := by
      intro l
      induction l with
      | nil =>
        intro _ st hInvSt _
        refine ⟨st, rfl, hInvSt, fun _ h => h, fun _ h => ⟨h, rfl⟩, le_refl _, ?_, le_refl _, ?_⟩
        · intro w h h2
          exact absurd h2 h
        · intro u hu
          cases hu
      | cons u l ihl =>
        intro hl st hInvSt hfuelSt
        have hu : u < g.length := hl u (List.mem_cons_self _ _)
        rw [List.foldl_cons, Option.some_bind]
        by_cases hedge : edgeB g v u = true
        · by_cases hvisu : visB st u = true
          · have hcond : (edgeB g v u && !(st.visited.getD u false)) = false := by
              rw [hedge, show st.visited.getD u false = visB st u from rfl, hvisu]
              rfl
            rw [if_neg (fun h => Bool.noConfusion (hcond.symm.trans h))]
            obtain ⟨s2, hfold, hI, hmono, hfinpre, htime, hnew, hunv, hmem⟩ :=
              ihl (fun x hx => hl x (List.mem_cons_of_mem _ hx)) st hInvSt hfuelSt
            refine ⟨s2, hfold, hI, hmono, hfinpre, htime, hnew, hunv, ?_⟩
            intro x hx hex
            rcases List.mem_cons.mp hx with hxe | hxe
            · subst hxe
              exact hmono x hvisu
            · exact hmem x hxe hex
          · have hvisu' : visB st u = false := by
              rcases h : visB st u with _ | _
              · rfl
              · exact absurd h hvisu
            have hcond : (edgeB g v u && !(st.visited.getD u false)) = true := by
              rw [hedge, show st.visited.getD u false = visB st u from rfl, hvisu']
              rfl
            rw [if_pos hcond]
            have hreachu : ∀ p, (P p ∨ p = v) → Relation.ReflTransGen (EdgeR g) p u := by
              rintro p (hp | hp)
              · exact (hreach p hp).tail hedge
              · subst hp
                exact Relation.ReflTransGen.single hedge
            obtain ⟨s', hdfs, hI', hvis'u, hfin'u, hmono', hfinpre', htime', hnew', hunvis'⟩ :=
              ih u st _ hInvSt hu hvisu' hreachu hfuelSt
            rw [hdfs]
            obtain ⟨s2, hfold, hI2, hmono2, hfinpre2, htime2, hnew2, hunv2, hmem2⟩ :=
              ihl (fun x hx => hl x (List.mem_cons_of_mem _ hx)) s' hI' (by omega)
            refine ⟨s2, hfold, hI2, ?_, ?_, by omega, ?_, by omega, ?_⟩
            · intro w hw
              exact hmono2 w (hmono' w hw)
            · intro w hw
              rcases hfinpre' w hw with ⟨h1, h2⟩
              rcases hfinpre2 w h1 with ⟨h3, h4⟩
              exact ⟨h3, by rw [h4, h2]⟩
            · intro w hw hw2
              by_cases hfmid : finP s' w
              · rcases hfinpre2 w hfmid with ⟨_, h4⟩
                rw [h4]
                have := hnew' w hw hfmid
                omega
              · have := hnew2 w hfmid hw2
                omega
            · intro x hx hex
              rcases List.mem_cons.mp hx with hxe | hxe
              · subst hxe
                exact hmono2 x hvis'u
              · exact hmem2 x hxe hex
        · have hcond : (edgeB g v u && !(st.visited.getD u false)) = false := by
            rcases h : edgeB g v u with _ | _
            · rfl
            · exact absurd h hedge
          rw [if_neg (fun h => Bool.noConfusion (hcond.symm.trans h))]
          obtain ⟨s2, hfold, hI, hmono, hfinpre, htime, hnew, hunv, hmem⟩ :=
            ihl (fun x hx => hl x (List.mem_cons_of_mem _ hx)) st hInvSt hfuelSt
          refine ⟨s2, hfold, hI, hmono, hfinpre, htime, hnew, hunv, ?_⟩
          intro x hx hex
          rcases List.mem_cons.mp hx with hxe | hxe
          · subst hxe
            exact absurd hex hedge
          · exact hmem x hxe hex
    obtain ⟨s2, hfold, hI2, hmono2, hfinpre2, htime2, hnew2, hunv2, hmem2⟩ :=
      Aux (List.range g.length) (fun x hx => List.mem_range.mp hx)
        { s with visited := s.visited.set v true } hInv1 (by omega)
    obtain ⟨hlenV2, hlenE2, hvf2, hPnf2, hrange2, hinj2, hGEI2⟩ := hI2
    have hfin2v : ¬ finP s2 v := (hPnf2 v (Or.inr rfl)).2
    have hvis2v : visB s2 v = true := by
      apply hmono2
      rw [hvis1 v, if_pos rfl]
    -- pop v
    set spop : St := { s2 with exit_time := s2.exit_time.set v (s2.time + 1), time := s2.time + 1 } with hspop
    have hexitv' : exitv spop v = s2.time + 1 :=
      getD_set_self _ _ _ _ (by rw [hlenE2]; exact hv)
    have hexit' : ∀ w, w ≠ v → exitv spop w = exitv s2 w := by
      intro w hwv
      exact getD_set_ne _ _ _ (fun h => hwv h.symm)
    have hvispop : ∀ w, visB spop w = visB s2 w := fun w => rfl
    have htimepop : spop.time = s2.time + 1 := rfl
    have hfin' : ∀ w, finP spop w ↔ (finP s2 w ∨ w = v) := by
      intro w
      by_cases hwv : w = v
      · subst hwv
        constructor
        · intro _
          exact Or.inr rfl
        · intro _
          show exitv spop w ≠ 0
          rw [hexitv']
          omega
      · have heq : finP spop w ↔ finP s2 w := by
          show exitv spop w ≠ 0 ↔ exitv s2 w ≠ 0
          rw [hexit' w hwv]
        rw [heq]
        constructor
        · exact Or.inl
        · rintro (h | h)
          · exact h
          · exact absurd h hwv
    refine ⟨spop, ?_, ?_, ?_, ?_, ?_, ?_, ?_, ?_, ?_⟩
    · rw [dfs_succ, hfold, Option.map_some', hspop]
    · -- invariant w.r.t. P restored
      refine ⟨hlenV2, by rw [hspop]; simp only; rw [List.length_set]; exact hlenE2,
        ?_, ?_, ?_, ?_, ?_⟩
      · intro w hw
        rw [hvispop w, hvf2 w hw, hfin' w]
        constructor
        · rintro (h | h | h)
          · exact Or.inl (Or.inl h)
          · exact Or.inr h
          · exact Or.inl (Or.inr h)
        · rintro ((h | h) | h)
          · exact Or.inl h
          · exact Or.inr (Or.inr h)
          · exact Or.inr (Or.inl h)
      · intro w hp
        refine ⟨(hPnf2 w (Or.inl hp)).1, ?_⟩
        rw [hfin' w]
        rintro (h | h)
        · exact (hPnf2 w (Or.inl hp)).2 h
        · subst h
          exact hPv hp
      · intro w hw hfw
        rw [hfin' w] at hfw
        rw [htimepop]
        rcases hfw with h | h
        · rcases hrange2 w hw h with ⟨h1, h2⟩
          have hwv : w ≠ v := by
            intro he
            subst he
            exact hfin2v h
          rw [hexit' w hwv]
          omega
        · subst h
          rw [hexitv']
          omega
      · intro w w' hw hw' hfw hfw'
        rw [hfin' w] at hfw
        rw [hfin' w'] at hfw'
        rcases hfw with h1 | h1 <;> rcases hfw' with h2 | h2
        · have hwv : w ≠ v := fun he => hfin2v (he ▸ h1)
          have hwv' : w' ≠ v := fun he => hfin2v (he ▸ h2)
          rw [hexit' w hwv, hexit' w' hwv']
          exact hinj2 w w' hw hw' h1 h2
        · have hwv : w ≠ v := fun he => hfin2v (he ▸ h1)
          rw [h2, hexit' w hwv, hexitv']
          intro he
          have := (hrange2 w hw h1).2
          omega
        · have hwv' : w' ≠ v := fun he => hfin2v (he ▸ h2)
          rw [h1, hexitv', hexit' w' hwv']
          intro he
          have := (hrange2 w' hw' h2).2
          omega
        · intro _
          rw [h1, h2]
      · intro hA u w hew hfu
        rw [hfin' u] at hfu
        have hwlt : w < g.length := (edgeB_lt hWF hew).2
        rcases hfu with h1 | h1
        · have huv : u ≠ v := fun he => hfin2v (he ▸ h1)
          rcases hGEI2 hA u w hew h1 with ⟨h2, h3⟩
          have hwv : w ≠ v := fun he => hfin2v (he ▸ h2)
          rw [hfin' w, hexit' w hwv, hexit' u huv]
          exact ⟨Or.inl h2, h3⟩
        · subst h1
          have hvisw : visB s2 w = true := hmem2 w (List.mem_range.mpr hwlt) hew
          have hfw2 : finP s2 w := by
            rcases (hvf2 w hwlt).mp hvisw with h | h | h
            · exact h
            · exfalso
              have hrw := hreach w h
              exact hA w (Relation.TransGen.tail' hrw hew)
            · exfalso
              subst h
              exact hA w (Relation.TransGen.single hew)
          have hwv : w ≠ u := fun he => hfin2v (he ▸ hfw2)
          rw [hfin' w, hexit' w hwv, hexitv']
          refine ⟨Or.inl hfw2, ?_⟩
          have := (hrange2 w hwlt hfw2).2
          omega
    · rw [hvispop v]
      exact hvis2v
    · rw [hfin' v]
      exact Or.inr rfl
    · intro w hw
      rw [hvispop w]
      apply hmono2
      rw [hvis1 w]
      by_cases hwv : w = v
      · rw [if_pos hwv]
      · rw [if_neg hwv]
        exact hw
    · intro w hfw
      have hwv : w ≠ v := fun he => hfinv (he ▸ hfw)
      have hfw1 : finP { s with visited := s.visited.set v true } w := hfw
      rcases hfinpre2 w hfw1 with ⟨h1, h2⟩
      rw [hfin' w, hexit' w hwv]
      exact ⟨Or.inl h1, h2⟩
    · rw [htimepop]
      have : s.time ≤ s2.time := htime2
      omega
    · intro w hnfw hfw
      rw [hfin' w] at hfw
      by_cases hwv : w = v
      · subst hwv
        rw [hexitv']
        have : s.time ≤ s2.time := htime2
        omega
      · rw [hexit' w hwv]
        rcases hfw with h | h
        · exact hnew2 w hnfw h
        · exact absurd h hwv
    · have hle : unvis g spop = unvis g s2 := rfl
      omega

theorem dfsInit_inv (g : Graph) :
    DfsInv g ⟨List.replicate g.length false, List.replicate g.length 0, 0⟩ (fun _ => False) := by
  have hvis : ∀ w, visB ⟨List.replicate g.length false, List.replicate g.length 0, 0⟩ w
      = false := by
    intro w
    exact getD_replicate _ _ _
  have hfin : ∀ w, ¬ finP ⟨List.replicate g.length false, List.replicate g.length 0, 0⟩ w := by
    intro w h
    exact h (getD_replicate _ _ _)
  refine ⟨by simp, by simp, ?_, ?_, ?_, ?_, ?_⟩
  · intro w hw
    rw [hvis w]
    constructor
    · intro h
      cases h
    · rintro (h | h)
      · exact absurd h (hfin w)
      · cases h
  · rintro w ⟨⟩
  · intro w _ h
    exact absurd h (hfin w)
  · intro w w' _ _ h
    exact absurd h (hfin w)
  · intro _ u w _ h
    exact absurd h (hfin u)

theorem dfsForest_spec (g : Graph) (hWF : WFP g) :
    ∃ s, dfsForest g = some s ∧ DfsInv g s (fun _ => False) ∧
      ∀ w, w < g.length → finP s w := by
  have Aux : ∀ l : List Nat, (∀ x ∈ l, x < g.length) →
      ∀ st, DfsInv g st (fun _ => False) →
      ∃ s', l.foldl
          (fun acc v => acc.bind fun st =>
            if !(st.visited.getD v false) then dfs g g.length v st else some st)
          (some st) = some s' ∧
        DfsInv g s' (fun _ => False) ∧
        (∀ w, finP st w → finP s' w) ∧
        (∀ v ∈ l, finP s' v) := by
    intro l
    induction l with
    | nil =>
      intro _ st hInvSt
      refine ⟨st, rfl, hInvSt, fun _ h => h, ?_⟩
      intro v hv
      cases hv
    | cons v l ihl =>
      intro hl st hInvSt
      have hv : v < g.length := hl v (List.mem_cons_self _ _)
      rw [List.foldl_cons, Option.some_bind]
      by_cases hvis : visB st v = true
      · have hcond : (!(st.visited.getD v false)) = false := by
          rw [show st.visited.getD v false = visB st v from rfl, hvis]
          rfl
        rw [if_neg (fun h => Bool.noConfusion (hcond.symm.trans h))]
        obtain ⟨s', hfold, hI, hfinpre, hall⟩ :=
          ihl (fun x hx => hl x (List.mem_cons_of_mem _ hx)) st hInvSt
        refine ⟨s', hfold, hI, hfinpre, ?_⟩
        intro x hx
        rcases List.mem_cons.mp hx with hxe | hxe
        · subst hxe
          have hfx : finP st x := by
            rcases (hInvSt.2.2.1 x hv).mp hvis with h | h
            · exact h
            · cases h
          exact hfinpre x hfx
        · exact hall x hxe
      · have hvis' : visB st v = false := by
          rcases h : visB st v with _ | _
          · rfl
          · exact absurd h hvis
        have hcond : (!(st.visited.getD v false)) = true := by
          rw [show st.visited.getD v false = visB st v from rfl, hvis']
          rfl
        rw [if_pos hcond]
        obtain ⟨s', hdfs, hI', hvis'v, hfin'v, hmono', hfinpre', _, _, _⟩ :=
          dfs_spec g hWF g.length v st _ hInvSt hv hvis' (by rintro p ⟨⟩)
            (by
              rw [unvis]
              have hle := List.length_filter_le (fun w => !(visB st w)) (List.range g.length)
              simpa using hle)
        rw [hdfs]
        obtain ⟨s2, hfold, hI2, hfinpre2, hall2⟩ :=
          ihl (fun x hx => hl x (List.mem_cons_of_mem _ hx)) s' hI'
        refine ⟨s2, hfold, hI2, fun w hw => hfinpre2 w (hfinpre' w hw).1, ?_⟩
        intro x hx
        rcases List.mem_cons.mp hx with hxe | hxe
        · subst hxe
          exact hfinpre2 x hfin'v
        · exact hall2 x hxe
  obtain ⟨s, hfold, hI, _, hall⟩ := Aux (List.range g.length) (fun x hx => List.mem_range.mp hx)
    ⟨List.replicate g.length false, List.replicate g.length 0, 0⟩ (dfsInit_inv g)
  exact ⟨s, hfold, hI, fun w hw => hall w (List.mem_range.mpr hw)⟩

/-- Master statement for the exit-time DFS sorter of `Kahn.py` on
well-formed graphs: it never errors and returns a permutation of `0..N-1`;
on acyclic graphs every edge goes forward in the result. -/
theorem topo_stack_duration_master (g : Graph) (hWF : WFP g) :
    ∃ order, topo_stack_duration g = .ok order ∧
      order.Perm (List.range g.length) ∧
      (Acyclic g → ∀ u w, u < g.length → w < g.length → edgeB g u w = true →
        order.indexOf u < order.indexOf w) := by
  obtain ⟨s, hs, hI, hall⟩ := dfsForest_spec g hWF
  obtain ⟨hlenV, hlenE, hvf, hPnf, hrange, hinj, hGEI⟩ := hI
  have hinvB : invalidB g = false := (WFP_iff_invalidB g).mp hWF
  refine ⟨sortDesc (fun v => s.exit_time.getD v 0) (List.range g.length), ?_,
    sortDesc_perm _ _, ?_⟩
  · rw [topo_stack_duration, hinvB]
    simp only [Bool.false_eq_true, if_false]
    rw [hs]
  · intro hA u w hu hw hew
    have hfu : finP s u := hall u hu
    rcases hGEI hA u w hew hfu with ⟨hfw, hlt⟩
    exact sortDesc_indexOf_lt _ _ (List.mem_range.mpr hu) (List.mem_range.mpr hw) hlt

end Kahn

/-- C1: for every well-formed acyclic adjacency-matrix graph (square,
non-empty, no-edge sentinel at `graph[0][0]`), `khan` returns a sequence of
length `N` that is a valid topological order: `is_valid_topo` returns
`True` on it. -/
theorem khan_valid_topo_of_acyclic (g : Graph) (hWF : WFP g) (hA : Acyclic g) :
    ∃ order, Kahn.khan g = .ok order ∧ order.length = g.length ∧
      is_valid_topo g order = some true := by
  rcases Kahn.khan_complete g hWF hA with ⟨fin, hok, hperm, hclos⟩
  refine ⟨fin, hok, by simpa using hperm.length_eq, ?_⟩
  rw [is_valid_topo_some_true_iff hperm]
  intro u v hu hv he
  exact (hclos u v he (hperm.mem_iff.mpr (List.mem_range.mpr hv))).2

theorem khan_valid_topo_of_acyclic_witness :
    WFP G1 ∧ Acyclic G1 ∧
      (∃ order, Kahn.khan G1 = .ok order ∧ order.length = G1.length ∧
        is_valid_topo G1 order = some true) := by
  have hWF : WFP G1 := by decide
  have hA : Acyclic G1 := acyclic_of_ranking G1 hWF (fun v => v) (by decide)
  exact ⟨hWF, hA, khan_valid_topo_of_acyclic G1 hWF hA⟩

/-- C5: on every well-formed graph `khan` terminates without error, its
output never exceeds `N` vertices, and the output length equals `N` exactly
when the graph is acyclic (a shorter output signals a cycle). -/
theorem khan_length_iff_acyclic (g : Graph) (hWF : WFP g) :
    ∃ order, Kahn.khan g = .ok order ∧ order.length ≤ g.length ∧
      (order.length = g.length ↔ Acyclic g) := by
  rcases Kahn.khan_master g hWF with ⟨fin, hok, hnd, hlt, hclos, hstuck⟩
  have hle : fin.length ≤ g.length := by
    have hsp : fin.Subperm (List.range g.length) :=
      List.subperm_of_subset hnd (fun x hx => List.mem_range.mpr (hlt x hx))
    simpa using hsp.length_le
  refine ⟨fin, hok, hle, ?_, ?_⟩
  · intro hlen
    have hperm : fin.Perm (List.range g.length) := perm_range_of hnd hlt (by omega)
    apply acyclic_of_ranking g hWF (fun v => fin.indexOf v)
    intro u hu v hv he
    exact (hclos u v he (hperm.mem_iff.mpr (List.mem_range.mpr hv))).2
  · intro hA
    have hall : ∀ w, w < g.length → w ∈ fin := by
      intro w hw
      by_contra hwn
      exact Kahn.cycle_of_stuck g hstuck hw hwn hA
    have hge : g.length ≤ fin.length := by
      have hsp : (List.range g.length).Subperm fin :=
        List.subperm_of_subset (List.nodup_range _)
          (fun x hx => hall x (List.mem_range.mp hx))
      simpa using hsp.length_le
    omega

theorem khan_length_iff_acyclic_witness :
    WFP Gcyc ∧
      (∃ order, Kahn.khan Gcyc = .ok order ∧ order.length ≤ Gcyc.length ∧
        (order.length = Gcyc.length ↔ Acyclic Gcyc)) :=
  ⟨by decide, khan_length_iff_acyclic Gcyc (by decide)⟩

/-- C3: for every well-formed acyclic graph, the DFS sorter of `Kahn.py`
(vertices sorted by strictly decreasing exit time) returns a valid
topological order: `is_valid_topo` returns `True` on it. -/
theorem topo_stack_duration_valid_of_acyclic (g : Graph) (hWF : WFP g) (hA : Acyclic g) :
    ∃ order, Kahn.topo_stack_duration g = .ok order ∧
      is_valid_topo g order = some true := by
  obtain ⟨order, hok, hperm, hfwd⟩ := Kahn.topo_stack_duration_master g hWF
  refine ⟨order, hok, ?_⟩
  rw [is_valid_topo_some_true_iff hperm]
  intro u v hu hv he
  exact hfwd hA u v hu hv he

theorem topo_stack_duration_valid_of_acyclic_witness :
    WFP G1 ∧ Acyclic G1 ∧
      (∃ order, Kahn.topo_stack_duration G1 = .ok order ∧
        is_valid_topo G1 order = some true) := by
  have hWF : WFP G1 := by decide
  have hA : Acyclic G1 := acyclic_of_ranking G1 hWF (fun v => v) (by decide)
  exact ⟨hWF, hA, topo_stack_duration_valid_of_acyclic G1 hWF hA⟩

/-- C6: for every well-formed graph and every candidate order that is a
permutation of `0..N-1`, `is_valid_topo` returns `True` iff every edge
`u -> v` of the graph has the position of `u` strictly before the position
of `v` in the order. -/
theorem is_valid_topo_true_iff_edges_forward (g : Graph) (order : List Nat)
    (hWF : WFP g) (hperm : order.Perm (List.range g.length)) :
    is_valid_topo g order = some true ↔
      ∀ u v, edgeB g u v = true → order.indexOf u < order.indexOf v := by
  rw [is_valid_topo_some_true_iff hperm]
  constructor
  · intro h u v he
    rcases edgeB_lt hWF he with ⟨hu, hv⟩
    exact h u v hu hv he
  · intro h u v _ _ he
    exact h u v he

theorem is_valid_topo_true_iff_edges_forward_witness :
    WFP G1 ∧ ([0, 2, 1, 4, 3, 5] : List Nat).Perm (List.range G1.length) ∧
      (is_valid_topo G1 [0, 2, 1, 4, 3, 5] = some true ↔
        ∀ u v, edgeB G1 u v = true →
          ([0, 2, 1, 4, 3, 5] : List Nat).indexOf u <
            ([0, 2, 1, 4, 3, 5] : List Nat).indexOf v) :=
  ⟨by decide, by decide,
    is_valid_topo_true_iff_edges_forward G1 [0, 2, 1, 4, 3, 5] (by decide) (by decide)⟩

namespace Gbt

theorem unvis_pos_gbt (g : Graph) (s : St) {v : Nat} (hv : v < g.length)
    (hnv : visB s v = false) : 0 < unvis g s := by
  have hmem : v ∈ (List.range g.length).filter (fun w => !(visB s w)) := by
    rw [List.mem_filter]
    refine ⟨List.mem_range.mpr hv, ?_⟩
    rw [hnv]
    rfl
  have hne : (List.range g.length).filter (fun w => !(visB s w)) ≠ [] := by
    intro h
    rw [h] at hmem
    cases hmem
  rw [unvis]
  exact List.length_pos.mpr hne

theorem range'_one_succ (t : Nat) :
    List.range' 1 (t + 1) = List.range' 1 t ++ [t + 1] := by
  rw [List.range'_concat, Nat.one_mul, Nat.add_comm]

/-- Pushing a fresh vertex records the new clock tick as its enter time. -/
theorem stamps_push (g : Graph) (s : St) (v : Nat) (hv : v < g.length)
    (hlenV : s.visited.length = g.length) (hlenE : s.enter_time.length = g.length)
    (hnv : visB s v = false) :
    (stamps g { s with visited := s.visited.set v true, enter_time := s.enter_time.set v (s.time + 1), time := s.time + 1 }).Perm
      ((s.time + 1) :: stamps g s) := by
  set s1 : St := { s with visited := s.visited.set v true, enter_time := s.enter_time.set v (s.time + 1), time := s.time + 1 } with hs1
  have hvis1 : ∀ w, w ≠ v → visB s1 w = visB s w :=
    fun w hw => getD_set_ne _ _ _ (fun h => hw h.symm)
  have hvis1v : visB s1 v = true := getD_set_self _ _ _ _ (by rw [hlenV]; exact hv)
  have hent1 : ∀ w, w ≠ v → enterv s1 w = enterv s w :=
    fun w hw => getD_set_ne _ _ _ (fun h => hw h.symm)
  have hent1v : enterv s1 v = s.time + 1 := getD_set_self _ _ _ _ (by rw [hlenE]; exact hv)
  have hfilter : ((List.range g.length).filter (fun w => visB s1 w)).Perm
      (v :: (List.range g.length).filter (fun w => visB s w)) :=
    filter_perm_flip (List.nodup_range _) (List.mem_range.mpr hv) hnv hvis1v
      (fun w _ hwv => (hvis1 w hwv).symm)
  have hmap : (((List.range g.length).filter (fun w => visB s1 w)).map
      (fun w => enterv s1 w)).Perm
      ((s.time + 1) :: ((List.range g.length).filter (fun w => visB s w)).map
        (fun w => enterv s w)) := by
    have h1 := hfilter.map (fun w => enterv s1 w)
    rw [List.map_cons, hent1v] at h1
    have h2 : ((List.range g.length).filter (fun w => visB s w)).map (fun w => enterv s1 w)
        = ((List.range g.length).filter (fun w => visB s w)).map (fun w => enterv s w) := by
      apply List.map_congr_left
      intro w hw
      rcases List.mem_filter.mp hw with ⟨_, hwvis⟩
      have hwv : w ≠ v := by
        intro he
        rw [he, hnv] at hwvis
        cases hwvis
      exact hent1 w hwv
    rw [h2] at h1
    exact h1
  have hfin_eq : ((List.range g.length).filter (fun w => decide (exitv s1 w ≠ 0))).map
      (fun w => exitv s1 w)
      = ((List.range g.length).filter (fun w => decide (exitv s w ≠ 0))).map
        (fun w => exitv s w) := rfl
  show ((((List.range g.length).filter (fun w => visB s1 w)).map (fun w => enterv s1 w)) ++
      (((List.range g.length).filter (fun w => decide (exitv s1 w ≠ 0))).map
        (fun w => exitv s1 w))).Perm _
  rw [hfin_eq]
  exact hmap.append_right _

/-- Popping an in-progress vertex records the new clock tick as its exit
time. -/
theorem stamps_pop (g : Graph) (s2 : St) (v : Nat) (hv : v < g.length)
    (hlenX : s2.exit_time.length = g.length)
    (hnf : ¬ finP s2 v) :
    (stamps g { s2 with exit_time := s2.exit_time.set v (s2.time + 1), time := s2.time + 1 }).Perm
      ((s2.time + 1) :: stamps g s2) := by
  set spop : St := { s2 with exit_time := s2.exit_time.set v (s2.time + 1), time := s2.time + 1 } with hspop
  have hex : ∀ w, w ≠ v → exitv spop w = exitv s2 w :=
    fun w hw => getD_set_ne _ _ _ (fun h => hw h.symm)
  have hexv : exitv spop v = s2.time + 1 := getD_set_self _ _ _ _ (by rw [hlenX]; exact hv)
  have hfilter : ((List.range g.length).filter (fun w => decide (exitv spop w ≠ 0))).Perm
      (v :: (List.range g.length).filter (fun w => decide (exitv s2 w ≠ 0))) := by
    apply filter_perm_flip (List.nodup_range _) (List.mem_range.mpr hv)
    · exact @decide_eq_false (exitv s2 v ≠ 0) _ hnf
    · apply decide_eq_true
      rw [hexv]
      omega
    · intro w _ hwv
      rw [show exitv spop w = exitv s2 w from hex w hwv]
  have hmap : (((List.range g.length).filter (fun w => decide (exitv spop w ≠ 0))).map
      (fun w => exitv spop w)).Perm
      ((s2.time + 1) :: ((List.range g.length).filter (fun w => decide (exitv s2 w ≠ 0))).map
        (fun w => exitv s2 w)) := by
    have h1 := hfilter.map (fun w => exitv spop w)
    rw [List.map_cons, hexv] at h1
    have h2 : ((List.range g.length).filter (fun w => decide (exitv s2 w ≠ 0))).map
        (fun w => exitv spop w)
        = ((List.range g.length).filter (fun w => decide (exitv s2 w ≠ 0))).map
          (fun w => exitv s2 w) := by
      apply List.map_congr_left
      intro w hw
      rcases List.mem_filter.mp hw with ⟨_, hwfin⟩
      have hwv : w ≠ v := by
        intro he
        rw [he] at hwfin
        exact hnf (@of_decide_eq_true (exitv s2 v ≠ 0) _ hwfin)
      exact hex w hwv
    rw [h2] at h1
    exact h1
  have hvis_eq : ((List.range g.length).filter (fun w => visB spop w)).map
      (fun w => enterv spop w)
      = ((List.range g.length).filter (fun w => visB s2 w)).map (fun w => enterv s2 w) := rfl
  show ((((List.range g.length).filter (fun w => visB spop w)).map (fun w => enterv spop w)) ++
      (((List.range g.length).filter (fun w => decide (exitv spop w ≠ 0))).map
        (fun w => exitv spop w))).Perm _
  rw [hvis_eq]
  refine ((List.Perm.append_left _ hmap).trans ?_)
  exact List.perm_middle

/-- Unfolding of `Gbt.dfs` at positive fuel. -/
theorem dfs_succ_gbt (g : Graph) (fuel v : Nat) (s : St) :
    dfs g (fuel + 1) v s =
      ((List.range g.length).foldl
        (fun acc u => acc.bind fun st =>
          if edgeB g v u && !(st.visited.getD u false) then dfs g fuel u st else some st)
        (some { s with visited := s.visited.set v true,
                       enter_time := s.enter_time.set v (s.time + 1),
                       time := s.time + 1 })).map
        (fun st => { st with exit_time := st.exit_time.set v (st.time + 1),
                             time := st.time + 1 }) := rfl

/-- Main lemma for the shared-clock DFS: with the invariant, a fresh vertex
and enough fuel, `dfs` succeeds, finishes `v` and preserves the invariant;
visited and finished sets only grow and the clock never decreases. -/
theorem dfs_spec_gbt (g : Graph) :
    ∀ (fuel : Nat) (v : Nat) (s : St) (P : Nat → Prop),
      DfsInv g s P → v < g.length → visB s v = false →
      unvis g s ≤ fuel →
      ∃ s', dfs g fuel v s = some s' ∧ DfsInv g s' P ∧
        visB s' v = true ∧ finP s' v ∧
        (∀ w, visB s w = true → visB s' w = true) ∧
        (∀ w, finP s w → finP s' w) ∧
        s.time ≤ s'.time ∧
        unvis g s' < unvis g s := by
  intro fuel
  induction fuel with
  | zero =>
    intro v s P hInv hv hnv hfuel
    exact absurd hfuel (by
      have := unvis_pos_gbt g s hv hnv
      omega)
  | succ fuel ih =>
    intro v s P hInv hv hnv hfuel
    obtain ⟨hlenV, hlenN, hlenX, hvf, hPnf, hvb, hfb, hstamps⟩ := hInv
    have hPv : ¬ P v := by
      intro hp
      have h := (hPnf v hp).2.1
      rw [hnv] at h
      cases h
    have hfinv : ¬ finP s v := by
      intro hf
      have h := (hvf v hv).mpr (Or.inl hf)
      rw [hnv] at h
      cases h
    set s1 : St := { s with visited := s.visited.set v true, enter_time := s.enter_time.set v (s.time + 1), time := s.time + 1 } with hs1
    have hvis1 : ∀ w, visB s1 w = if w = v then true else visB s w := by
      intro w
      by_cases hwv : w = v
      · subst hwv
        rw [if_pos rfl]
        exact getD_set_self _ _ _ _ (by rw [hlenV]; exact hv)
      · rw [if_neg hwv]
        exact getD_set_ne _ _ _ (fun h => hwv h.symm)
    have hent1 : ∀ w, w ≠ v → enterv s1 w = enterv s w :=
      fun w hw => getD_set_ne _ _ _ (fun h => hw h.symm)
    have hent1v : enterv s1 v = s.time + 1 := getD_set_self _ _ _ _ (by rw [hlenN]; exact hv)
    have hex1 : ∀ w, exitv s1 w = exitv s w := fun w => rfl
    have hInv1 : DfsInv g s1 (fun w => P w ∨ w = v) := by
      refine ⟨by rw [hs1]; simp only; rw [List.length_set]; exact hlenV,
        by rw [hs1]; simp only; rw [List.length_set]; exact hlenN, hlenX, ?_, ?_, ?_, ?_, ?_⟩
      · intro w hw
        rw [hvis1 w]
        by_cases hwv : w = v
        · subst hwv
          rw [if_pos rfl]
          constructor
          · intro _
            exact Or.inr (Or.inr rfl)
          · intro _
            rfl
        · rw [if_neg hwv, hvf w hw]
          constructor
          · rintro (h | h)
            · exact Or.inl h
            · exact Or.inr (Or.inl h)
          · rintro (h | h | h)
            · exact Or.inl h
            · exact Or.inr h
            · exact absurd h hwv
      · rintro w (hp | hp)
        · rcases hPnf w hp with ⟨h1, h2, h3⟩
          refine ⟨h1, ?_, h3⟩
          rw [hvis1 w]
          by_cases hwv : w = v
          · rw [if_pos hwv]
          · rw [if_neg hwv]
            exact h2
        · subst hp
          refine ⟨hv, ?_, hfinv⟩
          rw [hvis1 w, if_pos rfl]
      · intro w hw hwvis
        rw [hvis1 w] at hwvis
        by_cases hwv : w = v
        · subst hwv
          rw [hent1v]
          have : s1.time = s.time + 1 := rfl
          omega
        · rw [if_neg hwv] at hwvis
          rw [hent1 w hwv]
          have := hvb w hw hwvis
          have ht : s1.time = s.time + 1 := rfl
          omega
      · intro w hw hwfin
        have hwfin' : finP s w := by
          rw [finP] at hwfin ⊢
          rwa [hex1 w] at hwfin
        have hwv : w ≠ v := fun he => hfinv (he ▸ hwfin')
        rw [hex1 w, hent1 w hwv]
        have := hfb w hw hwfin'
        have ht : s1.time = s.time + 1 := rfl
        omega
      · have hp := stamps_push g s v hv hlenV hlenN hnv
        have ht : s1.time = s.time + 1 := rfl
        rw [ht]
        refine hp.trans ?_
        rw [range'_one_succ]
        exact ((hstamps.cons (s.time + 1)).trans
          (List.perm_append_singleton (s.time + 1) (List.range' 1 s.time)).symm)
    have hunvis1 : unvis g s1 + 1 = unvis g s := by
      apply length_filter_flip (List.nodup_range g.length) (List.mem_range.mpr hv)
      · rw [hnv]
        rfl
      · rw [hvis1 v, if_pos rfl]
        rfl
      · intro w _ hwv
        rw [hvis1 w, if_neg hwv]
    have Aux : ∀ (l : List Nat), (∀ u ∈ l, u < g.length) →
        ∀ st, DfsInv g st (fun w => P w ∨ w = v) → unvis g st ≤ fuel →
        ∃ s2, l.foldl
            (fun acc u => acc.bind fun st =>
              if edgeB g v u && !(st.visited.getD u false) then dfs g fuel u st else some st)
            (some st) = some s2 ∧
          DfsInv g s2 (fun w => P w ∨ w = v) ∧
          (∀ w, visB st w = true → visB s2 w = true) ∧
          (∀ w, finP st w → finP s2 w) ∧
          st.time ≤ s2.time ∧
          unvis g s2 ≤ unvis g st := by
      intro l
      induction l with
      | nil =>
        intro _ st hInvSt _
        exact ⟨st, rfl, hInvSt, fun _ h => h, fun _ h => h, le_refl _, le_refl _⟩
      | cons u l ihl =>
        intro hl st hInvSt hfuelSt
        have hu : u < g.length := hl u (List.mem_cons_self _ _)
        rw [List.foldl_cons, Option.some_bind]
        by_cases hedge : edgeB g v u = true
        · by_cases hvisu : visB st u = true
          · have hcond : (edgeB g v u && !(st.visited.getD u false)) = false := by
              rw [hedge, show st.visited.getD u false = visB st u from rfl, hvisu]
              rfl
            rw [if_neg (fun h => Bool.noConfusion (hcond.symm.trans h))]
            exact ihl (fun x hx => hl x (List.mem_cons_of_mem _ hx)) st hInvSt hfuelSt
          · have hvisu' : visB st u = false := by
              rcases h : visB st u with _ | _
              · rfl
              · exact absurd h hvisu
            have hcond : (edgeB g v u && !(st.visited.getD u false)) = true := by
              rw [hedge, show st.visited.getD u false = visB st u from rfl, hvisu']
              rfl
            rw [if_pos hcond]
            obtain ⟨s', hdfs, hI', hvis'u, hfin'u, hmono', hfinpre', htime', hunvis'⟩ :=
              ih u st _ hInvSt hu hvisu' hfuelSt
            rw [hdfs]
            obtain ⟨s2, hfold, hI2, hmono2, hfinpre2, htime2, hunv2⟩ :=
              ihl (fun x hx => hl x (List.mem_cons_of_mem _ hx)) s' hI' (by omega)
            exact ⟨s2, hfold, hI2, fun w hw => hmono2 w (hmono' w hw),
              fun w hw => hfinpre2 w (hfinpre' w hw), by omega, by omega⟩
        · have hcond : (edgeB g v u && !(st.visited.getD u false)) = false := by
            rcases h : edgeB g v u with _ | _
            · rfl
            · exact absurd h hedge
          rw [if_neg (fun h => Bool.noConfusion (hcond.symm.trans h))]
          exact ihl (fun x hx => hl x (List.mem_cons_of_mem _ hx)) st hInvSt hfuelSt
    obtain ⟨s2, hfold, hI2, hmono2, hfinpre2, htime2, hunv2⟩ :=
      Aux (List.range g.length) (fun x hx => List.mem_range.mp hx) s1 hInv1 (by omega)
    obtain ⟨hlenV2, hlenN2, hlenX2, hvf2, hPnf2, hvb2, hfb2, hstamps2⟩ := hI2
    have hfin2v : ¬ finP s2 v := (hPnf2 v (Or.inr rfl)).2.2
    have hvis2v : visB s2 v = true := by
      apply hmono2
      rw [hvis1 v, if_pos rfl]
    set spop : St := { s2 with exit_time := s2.exit_time.set v (s2.time + 1), time := s2.time + 1 } with hspop
    have hexv : exitv spop v = s2.time + 1 := getD_set_self _ _ _ _ (by rw [hlenX2]; exact hv)
    have hex : ∀ w, w ≠ v → exitv spop w = exitv s2 w :=
      fun w hw => getD_set_ne _ _ _ (fun h => hw h.symm)
    have hvispop : ∀ w, visB spop w = visB s2 w := fun w => rfl
    have hentpop : ∀ w, enterv spop w = enterv s2 w := fun w => rfl
    have htimepop : spop.time = s2.time + 1 := rfl
    have hfin' : ∀ w, finP spop w ↔ (finP s2 w ∨ w = v) := by
      intro w
      by_cases hwv : w = v
      · subst hwv
        constructor
        · intro _
          exact Or.inr rfl
        · intro _
          show exitv spop w ≠ 0
          rw [hexv]
          omega
      · have heq : finP spop w ↔ finP s2 w := by
          show exitv spop w ≠ 0 ↔ exitv s2 w ≠ 0
          rw [hex w hwv]
        rw [heq]
        constructor
        · exact Or.inl
        · rintro (h | h)
          · exact h
          · exact absurd h hwv
    refine ⟨spop, ?_, ?_, ?_, ?_, ?_, ?_, ?_, ?_⟩
    · rw [dfs_succ_gbt, hfold, Option.map_some', hspop]
    · refine ⟨hlenV2, hlenN2, by rw [hspop]; simp only; rw [List.length_set]; exact hlenX2,
        ?_, ?_, ?_, ?_, ?_⟩
      · intro w hw
        rw [hvispop w, hvf2 w hw, hfin' w]
        constructor
        · rintro (h | h | h)
          · exact Or.inl (Or.inl h)
          · exact Or.inr h
          · exact Or.inl (Or.inr h)
        · rintro ((h | h) | h)
          · exact Or.inl h
          · exact Or.inr (Or.inr h)
          · exact Or.inr (Or.inl h)
      · intro w hp
        rcases hPnf2 w (Or.inl hp) with ⟨h1, h2, h3⟩
        refine ⟨h1, h2, ?_⟩
        rw [hfin' w]
        rintro (h | h)
        · exact h3 h
        · subst h
          exact hPv hp
      · intro w hw hwvis
        rw [hvispop w] at hwvis
        rw [hentpop w, htimepop]
        have := hvb2 w hw hwvis
        omega
      · intro w hw hwfin
        rw [hfin' w] at hwfin
        rw [hentpop w, htimepop]
        rcases hwfin with h | h
        · have hwv : w ≠ v := fun he => hfin2v (he ▸ h)
          rw [hex w hwv]
          have := hfb2 w hw h
          omega
        · subst h
          rw [hexv]
          have := hvb2 w hw hvis2v
          omega
      · rw [htimepop]
        refine (stamps_pop g s2 v hv hlenX2 hfin2v).trans ?_
        rw [range'_one_succ]
        exact ((hstamps2.cons (s2.time + 1)).trans
          (List.perm_append_singleton (s2.time + 1) (List.range' 1 s2.time)).symm)
    · rw [hvispop v]
      exact hvis2v
    · rw [hfin' v]
      exact Or.inr rfl
    · intro w hw
      rw [hvispop w]
      apply hmono2
      rw [hvis1 w]
      by_cases hwv : w = v
      · rw [if_pos hwv]
      · rw [if_neg hwv]
        exact hw
    · intro w hfw
      rw [hfin' w]
      refine Or.inl (hfinpre2 w ?_)
      show exitv s1 w ≠ 0
      rw [hex1 w]
      exact hfw
    · rw [htimepop]
      have ht1 : s1.time = s.time + 1 := rfl
      omega
    · have hle : unvis g spop = unvis g s2 := rfl
      omega

theorem dfsInit_inv_gbt (g : Graph) :
    DfsInv g ⟨List.replicate g.length false, List.replicate g.length 0,
      List.replicate g.length 0, 0⟩ (fun _ => False) := by
  have hvis : ∀ w, visB ⟨List.replicate g.length false, List.replicate g.length 0,
      List.replicate g.length 0, 0⟩ w = false := by
    intro w
    exact getD_replicate _ _ _
  have hfin : ∀ w, ¬ finP ⟨List.replicate g.length false, List.replicate g.length 0,
      List.replicate g.length 0, 0⟩ w := by
    intro w h
    exact h (getD_replicate _ _ _)
  refine ⟨by simp, by simp, by simp, ?_, ?_, ?_, ?_, ?_⟩
  · intro w hw
    rw [hvis w]
    constructor
    · intro h
      cases h
    · rintro (h | h)
      · exact absurd h (hfin w)
      · cases h
  · rintro w ⟨⟩
  · intro w _ h
    rw [hvis w] at h
    cases h
  · intro w _ h
    exact absurd h (hfin w)
  · have h1 : (List.range g.length).filter
        (fun w => visB ⟨List.replicate g.length false, List.replicate g.length 0,
          List.replicate g.length 0, 0⟩ w) = [] := by
      rw [List.filter_eq_nil]
      intro w _
      rw [hvis w]
      intro h
      cases h
    have h2 : (List.range g.length).filter
        (fun w => decide (exitv ⟨List.replicate g.length false, List.replicate g.length 0,
          List.replicate g.length 0, 0⟩ w ≠ 0)) = [] := by
      rw [List.filter_eq_nil]
      intro w _
      intro h
      exact hfin w (@of_decide_eq_true
        (exitv ⟨List.replicate g.length false, List.replicate g.length 0,
          List.replicate g.length 0, 0⟩ w ≠ 0) _ h)
    rw [stamps, h1, h2]
    exact List.Perm.refl _

theorem dfsForest_spec_gbt (g : Graph) :
    ∃ s, dfsForest g = some s ∧ DfsInv g s (fun _ => False) ∧
      ∀ w, w < g.length → finP s w := by
  have Aux : ∀ l : List Nat, (∀ x ∈ l, x < g.length) →
      ∀ st, DfsInv g st (fun _ => False) →
      ∃ s', l.foldl
          (fun acc v => acc.bind fun st =>
            if !(st.visited.getD v false) then dfs g g.length v st else some st)
          (some st) = some s' ∧
        DfsInv g s' (fun _ => False) ∧
        (∀ w, finP st w → finP s' w) ∧
        (∀ v ∈ l, finP s' v) := by
    intro l
    induction l with
    | nil =>
      intro _ st hInvSt
      refine ⟨st, rfl, hInvSt, fun _ h => h, ?_⟩
      intro v hv
      cases hv
    | cons v l ihl =>
      intro hl st hInvSt
      have hv : v < g.length := hl v (List.mem_cons_self _ _)
      rw [List.foldl_cons, Option.some_bind]
      by_cases hvis : visB st v = true
      · have hcond : (!(st.visited.getD v false)) = false := by
          rw [show st.visited.getD v false = visB st v from rfl, hvis]
          rfl
        rw [if_neg (fun h => Bool.noConfusion (hcond.symm.trans h))]
        obtain ⟨s', hfold, hI, hfinpre, hall⟩ :=
          ihl (fun x hx => hl x (List.mem_cons_of_mem _ hx)) st hInvSt
        refine ⟨s', hfold, hI, hfinpre, ?_⟩
        intro x hx
        rcases List.mem_cons.mp hx with hxe | hxe
        · subst hxe
          have hfx : finP st x := by
            rcases (hInvSt.2.2.2.1 x hv).mp hvis with h | h
            · exact h
            · cases h
          exact hfinpre x hfx
        · exact hall x hxe
      · have hvis' : visB st v = false := by
          rcases h : visB st v with _ | _
          · rfl
          · exact absurd h hvis
        have hcond : (!(st.visited.getD v false)) = true := by
          rw [show st.visited.getD v false = visB st v from rfl, hvis']
          rfl
        rw [if_pos hcond]
        obtain ⟨s', hdfs, hI', hvis'v, hfin'v, hmono', hfinpre', _, _⟩ :=
          dfs_spec_gbt g g.length v st _ hInvSt hv hvis'
            (by
              rw [unvis]
              have hle := List.length_filter_le (fun w => !(visB st w)) (List.range g.length)
              simpa using hle)
        rw [hdfs]
        obtain ⟨s2, hfold, hI2, hfinpre2, hall2⟩ :=
          ihl (fun x hx => hl x (List.mem_cons_of_mem _ hx)) s' hI'
        refine ⟨s2, hfold, hI2, fun w hw => hfinpre2 w (hfinpre' w hw), ?_⟩
        intro x hx
        rcases List.mem_cons.mp hx with hxe | hxe
        · subst hxe
          exact hfinpre2 x hfin'v
        · exact hall2 x hxe
  obtain ⟨s, hfold, hI, _, hall⟩ := Aux (List.range g.length) (fun x hx => List.mem_range.mp hx)
    ⟨List.replicate g.length false, List.replicate g.length 0,
      List.replicate g.length 0, 0⟩ (dfsInit_inv_gbt g)
  exact ⟨s, hfold, hI, fun w hw => hall w (List.mem_range.mpr hw)⟩

/-- Master statement for `topo_stack_duration_with_details` on well-formed
graphs: it never errors, and returns the duration-sorted order together
with the timing arrays of the completed DFS forest. -/
theorem details_master (g : Graph) (hWF : WFP g) :
    ∃ s, dfsForest g = some s ∧
      topo_stack_duration_with_details g = .ok
        (sortDesc
            (fun v => ((List.range g.length).map
              (fun v => (s.exit_time.getD v 0 : Int) - (s.enter_time.getD v 0 : Int))).getD v 0)
            (List.range g.length),
          (List.range g.length).map
            (fun v => (s.exit_time.getD v 0 : Int) - (s.enter_time.getD v 0 : Int)),
          s.enter_time, s.exit_time) ∧
      DfsInv g s (fun _ => False) ∧ (∀ w, w < g.length → finP s w) := by
  obtain ⟨s, hs, hI, hall⟩ := dfsForest_spec_gbt g
  have hinvB : invalidB g = false := (WFP_iff_invalidB g).mp hWF
  refine ⟨s, hs, ?_, hI, hall⟩
  rw [topo_stack_duration_with_details, hinvB]
  simp only [Bool.false_eq_true, if_false]
  rw [hs]

end Gbt

theorem map_getD_range {α : Type} (l : List α) (d : α) (n : Nat) (hlen : l.length = n) :
    (List.range n).map (fun i => l.getD i d) = l := by
  apply List.ext_getElem
  · simp [hlen]
  · intro i h1 h2
    rw [List.getElem_map, List.getElem_range]
    exact List.getD_eq_getElem l d (by omega)

/-- Convenience for the `Gbt` wrapper. -/
theorem gbt_topo_ok_of_details {g : Graph} {o : List Nat}
    {rest : List Int × List Nat × List Nat}
    (h : Gbt.topo_stack_duration_with_details g = .ok (o, rest)) :
    Gbt.topo_stack_duration g = .ok o := by
  unfold Gbt.topo_stack_duration
  rw [h]

/-- C2 (code bug): on the well-formed acyclic graph `[[0,0],[1,0]]` (single
edge `1 -> 0`), the duration-sorting DFS of `Gbt_Kahn.py` returns `[0, 1]`,
which `is_valid_topo` rejects: the durations tie and the stable sort keeps
index order, placing the edge's target first. -/
theorem gbt_duration_sort_invalid_on_Grev :
    WFP Grev ∧ Acyclic Grev ∧
      Gbt.topo_stack_duration Grev = .ok [0, 1] ∧
      is_valid_topo Grev [0, 1] = some false :=
  ⟨by decide, acyclic_of_ranking Grev (by decide) (fun v => 1 - v) (by decide), rfl, rfl⟩

/-- C4 (counterexample): the two `topo_stack_duration` implementations
disagree on `[[0,0],[1,0]]`: the exit-time sorter of `Kahn.py` returns
`[1, 0]` while the duration sorter of `Gbt_Kahn.py` returns `[0, 1]`. -/
theorem sorters_differ_on_Grev :
    Kahn.topo_stack_duration Grev = .ok [1, 0] ∧
    Gbt.topo_stack_duration Grev = .ok [0, 1] ∧
    Kahn.topo_stack_duration Grev ≠ Gbt.topo_stack_duration Grev := by
  refine ⟨rfl, rfl, ?_⟩
  intro h
  rw [show Kahn.topo_stack_duration Grev = Except.ok [1, 0] from rfl,
    show Gbt.topo_stack_duration Grev = Except.ok [0, 1] from rfl] at h
  simp at h

/-- C4 (amended): sorting by decreasing exit time is not equivalent to
sorting by decreasing duration; there is a well-formed acyclic graph on
which the two implementations return different orderings. -/
theorem exists_graph_where_sorters_differ :
    ∃ g : Graph, WFP g ∧ Acyclic g ∧
      Kahn.topo_stack_duration g ≠ Gbt.topo_stack_duration g := by
  refine ⟨Grev, by decide,
    acyclic_of_ranking Grev (by decide) (fun v => 1 - v) (by decide), ?_⟩
  intro h
  rw [show Kahn.topo_stack_duration Grev = Except.ok [1, 0] from rfl,
    show Gbt.topo_stack_duration Grev = Except.ok [0, 1] from rfl] at h
  simp at h

/-- C7: each entry point (`khan`, both `topo_stack_duration`s and the
detailed variant) raises the validation `ValueError` exactly on inputs
failing the data-integrity check (empty matrix, or some row whose length
differs from the number of rows); on well-formed inputs no error is
raised.  The `None`/`isinstance` clauses of the Python check are type-level
facts of this embedding. -/
theorem entry_error_iff_not_wf (g : Graph) :
    ((∃ e, Kahn.khan g = .error e) ↔ ¬ WFP g) ∧
    ((∃ e, Kahn.topo_stack_duration g = .error e) ↔ ¬ WFP g) ∧
    ((∃ e, Gbt.topo_stack_duration_with_details g = .error e) ↔ ¬ WFP g) ∧
    ((∃ e, Gbt.topo_stack_duration g = .error e) ↔ ¬ WFP g) := by
  by_cases hWF : WFP g
  · obtain ⟨fin1, hok1, _⟩ := Kahn.khan_master g hWF
    obtain ⟨fin2, hok2, _⟩ := Kahn.topo_stack_duration_master g hWF
    obtain ⟨s, _, hok3, _⟩ := Gbt.details_master g hWF
    have hok4 := gbt_topo_ok_of_details hok3
    refine ⟨⟨?_, fun h => absurd hWF h⟩, ⟨?_, fun h => absurd hWF h⟩,
      ⟨?_, fun h => absurd hWF h⟩, ⟨?_, fun h => absurd hWF h⟩⟩
    · rintro ⟨e, he⟩
      rw [he] at hok1
      exact Except.noConfusion hok1
    · rintro ⟨e, he⟩
      rw [he] at hok2
      exact Except.noConfusion hok2
    · rintro ⟨e, he⟩
      rw [he] at hok3
      exact Except.noConfusion hok3
    · rintro ⟨e, he⟩
      rw [he] at hok4
      exact Except.noConfusion hok4
  · have hinv : invalidB g = true := by
      rcases h : invalidB g with _ | _
      · exact absurd ((WFP_iff_invalidB g).mpr h) hWF
      · rfl
    have h1 : Kahn.khan g = .error invalidMsg := by
      unfold Kahn.khan
      rw [hinv, if_pos rfl]
    have h2 : Kahn.topo_stack_duration g = .error invalidMsg := by
      unfold Kahn.topo_stack_duration
      rw [hinv, if_pos rfl]
    have h3 : Gbt.topo_stack_duration_with_details g = .error invalidMsg := by
      unfold Gbt.topo_stack_duration_with_details
      rw [hinv, if_pos rfl]
    have h4 : Gbt.topo_stack_duration g = .error invalidMsg := by
      unfold Gbt.topo_stack_duration
      rw [h3]
    exact ⟨⟨fun _ => hWF, fun _ => ⟨invalidMsg, h1⟩⟩,
      ⟨fun _ => hWF, fun _ => ⟨invalidMsg, h2⟩⟩,
      ⟨fun _ => hWF, fun _ => ⟨invalidMsg, h3⟩⟩,
      ⟨fun _ => hWF, fun _ => ⟨invalidMsg, h4⟩⟩⟩

/-- C8 (counterexample): the graph `Gcyc` contains a directed cycle through
vertex 0, yet both recursive DFS sorters terminate normally on it — the
`visited` check guards every recursive call, so the recursion is bounded
and no unbounded recursion occurs. -/
theorem dfs_terminates_on_cycle_example :
    Relation.TransGen (EdgeR Gcyc) 0 0 ∧
    Gbt.topo_stack_duration Gcyc = .ok [0, 1, 2] ∧
    Kahn.topo_stack_duration Gcyc = .ok [0, 1, 2] := by
  refine ⟨?_, rfl, rfl⟩
  have e01 : EdgeR Gcyc 0 1 := rfl
  have e12 : EdgeR Gcyc 1 2 := rfl
  have e20 : EdgeR Gcyc 2 0 := rfl
  exact ((Relation.TransGen.single e01).tail e12).tail e20

/-- C8 (amended): on every well-formed graph, cyclic or not, the recursive
DFS terminates: each vertex is visited at most once, the recursion depth
never exceeds `N`, and both DFS entry points return a result. -/
theorem dfs_sorters_terminate (g : Graph) (hWF : WFP g) :
    (∃ o, Kahn.topo_stack_duration g = .ok o) ∧
    (∃ t, Gbt.topo_stack_duration_with_details g = .ok t) := by
  obtain ⟨o, hok, _⟩ := Kahn.topo_stack_duration_master g hWF
  obtain ⟨s, _, hok2, _⟩ := Gbt.details_master g hWF
  exact ⟨⟨o, hok⟩, ⟨_, hok2⟩⟩

theorem dfs_sorters_terminate_witness :
    WFP Gcyc ∧ ((∃ o, Kahn.topo_stack_duration Gcyc = .ok o) ∧
      (∃ t, Gbt.topo_stack_duration_with_details Gcyc = .ok t)) :=
  ⟨by decide, dfs_sorters_terminate Gcyc (by decide)⟩

/-- C9: on every well-formed graph, cyclic or acyclic, both DFS sorters
terminate and return a permutation of `0..N-1` of length exactly `N` —
their output length never signals a cycle. -/
theorem dfs_sorters_return_permutation (g : Graph) (hWF : WFP g) :
    (∃ o, Kahn.topo_stack_duration g = .ok o ∧ o.length = g.length ∧
      o.Perm (List.range g.length)) ∧
    (∃ o, Gbt.topo_stack_duration g = .ok o ∧ o.length = g.length ∧
      o.Perm (List.range g.length)) := by
  constructor
  · obtain ⟨o, hok, hperm, _⟩ := Kahn.topo_stack_duration_master g hWF
    exact ⟨o, hok, by simpa using hperm.length_eq, hperm⟩
  · obtain ⟨s, _, hdet, _, _⟩ := Gbt.details_master g hWF
    refine ⟨_, gbt_topo_ok_of_details hdet, ?_, sortDesc_perm _ _⟩
    simpa using (sortDesc_perm
      (fun v => ((List.range g.length).map
        (fun v => (s.exit_time.getD v 0 : Int) - (s.enter_time.getD v 0 : Int))).getD v 0)
      (List.range g.length)).length_eq

theorem dfs_sorters_return_permutation_witness :
    WFP Gcyc ∧
      ((∃ o, Kahn.topo_stack_duration Gcyc = .ok o ∧ o.length = Gcyc.length ∧
        o.Perm (List.range Gcyc.length)) ∧
       (∃ o, Gbt.topo_stack_duration Gcyc = .ok o ∧ o.length = Gcyc.length ∧
        o.Perm (List.range Gcyc.length))) :=
  ⟨by decide, dfs_sorters_return_permutation Gcyc (by decide)⟩

/-- C10: on every well-formed graph, `topo_stack_duration_with_details`
returns enter/exit arrays stamped by one clock shared across the whole DFS
forest: the `2N` recorded timestamps are exactly `{1, ..., 2N}` with no
repeats, and `enter_time[v] < exit_time[v]` for every vertex. -/
theorem details_clock_stamps (g : Graph) (hWF : WFP g) :
    ∃ order durs ent ext,
      Gbt.topo_stack_duration_with_details g = .ok (order, durs, ent, ext) ∧
      (ent ++ ext).Perm (List.range' 1 (2 * g.length)) ∧
      (∀ v, v < g.length → ent.getD v 0 < ext.getD v 0) := by
  obtain ⟨s, hs, hdet, hI, hall⟩ := Gbt.details_master g hWF
  obtain ⟨hlenV, hlenN, hlenX, hvf, hPnf, hvb, hfb, hstamps⟩ := hI
  refine ⟨_, _, s.enter_time, s.exit_time, hdet, ?_, ?_⟩
  · have hvisall : ∀ w ∈ List.range g.length, Gbt.visB s w = true := fun w hw =>
      (hvf w (List.mem_range.mp hw)).mpr (Or.inl (hall w (List.mem_range.mp hw)))
    have hfv : (List.range g.length).filter (fun w => Gbt.visB s w) = List.range g.length :=
      List.filter_eq_self.mpr hvisall
    have hff : (List.range g.length).filter (fun w => decide (Gbt.exitv s w ≠ 0)) =
        List.range g.length :=
      List.filter_eq_self.mpr (fun w hw => decide_eq_true (hall w (List.mem_range.mp hw)))
    have hstamps' : ((List.range g.length).map (fun w => Gbt.enterv s w) ++
        (List.range g.length).map (fun w => Gbt.exitv s w)).Perm (List.range' 1 s.time) := by
      have hsp := hstamps
      rw [Gbt.stamps, hfv, hff] at hsp
      exact hsp
    have htime : s.time = 2 * g.length := by
      have hlen := hstamps'.length_eq
      rw [List.length_append, List.length_map, List.length_map, List.length_range,
        List.length_range'] at hlen
      omega
    have hent : (List.range g.length).map (fun w => Gbt.enterv s w) = s.enter_time :=
      map_getD_range s.enter_time 0 g.length hlenN
    have hext : (List.range g.length).map (fun w => Gbt.exitv s w) = s.exit_time :=
      map_getD_range s.exit_time 0 g.length hlenX
    rw [← hent, ← hext, ← htime]
    exact hstamps'
  · intro v hv
    exact (hfb v hv (hall v hv)).1

theorem details_clock_stamps_witness :
    WFP G1 ∧
      (∃ order durs ent ext,
        Gbt.topo_stack_duration_with_details G1 = .ok (order, durs, ent, ext) ∧
        (ent ++ ext).Perm (List.range' 1 (2 * G1.length)) ∧
        (∀ v, v < G1.length → ent.getD v 0 < ext.getD v 0)) :=
  ⟨by decide, details_clock_stamps G1 (by decide)⟩
